import Mathlib

/-
  Verification development for the Perplexity research bridge script
  (scripts/perplexity_client.py).  The script's text processing is embedded
  over `List Char`; the regex fragment used by the script is given an
  executable backtracking semantics (all matches, in Python's preference
  order, so that Python's chosen match is the head of the list).
-/

namespace Argus

/-- Characters treated as whitespace by Python's str.strip and by the regex
class written backslash-s (ASCII fragment; the script's inputs are ASCII). -/
def pyIsSpace (c : Char) : Bool :=
  c = ' ' || c = '\t' || c = '\n' || c = '\r' || c = '\x0b' || c = '\x0c'

/-- Word characters for the regex word boundary (ASCII fragment). -/
def isWordChar (c : Char) : Bool := c.isAlphanum || c = '_'

/-- Decimal digits, the regex class backslash-d. -/
def isDigitChar (c : Char) : Bool := '0' ≤ c && c ≤ '9'

/-- Lower-case a character sequence (Python str.lower, ASCII fragment). -/
def lowerList (l : List Char) : List Char := l.map Char.toLower

/-- Python str.strip(): drop whitespace from both ends. -/
def pyStrip (l : List Char) : List Char :=
  ((l.dropWhile pyIsSpace).reverse.dropWhile pyIsSpace).reverse

/-- Python str.split for a one-character separator: keeps empty pieces. -/
def splitOnChar (sep : Char) : List Char → List (List Char)
  | [] => [[]]
  | c :: rest =>
    let r := splitOnChar sep rest
    if c = sep then [] :: r
    else
      match r with
      | [] => [[c]]
      | p :: ps => (c :: p) :: ps

/-- Boolean test that the second list starts with the first. -/
def startsW : List Char → List Char → Bool
  | [], _ => true
  | _ :: _, [] => false
  | p :: ps, c :: cs => p = c && startsW ps cs

/-- Index of the first occurrence of `u` inside `l` (Python str.find). -/
def firstIdx (l u : List Char) : Option Nat :=
  if startsW u l then some 0
  else
    match l with
    | [] => none
    | _ :: rest => (firstIdx rest u).map (· + 1)

/-- Python str.find semantics: first index, or -1 when absent. -/
def pyFind (l u : List Char) : Int :=
  match firstIdx l u with
  | some n => (n : Int)
  | none => -1

/-- Python slice s[a:b] for integer bounds (no step). -/
def pySlice (l : List Char) (a b : Int) : List Char :=
  let n : Int := l.length
  let a' := if a < 0 then max 0 (n + a) else min a n
  let b' := if b < 0 then max 0 (n + b) else min b n
  (l.take b'.toNat).drop a'.toNat

/-- Python falsy-or on strings: the empty string selects the default. -/
def pyOr (x d : List Char) : List Char := if x = [] then d else x

/-- The fragment of Python regular expressions used by the script:
character classes, concatenation, alternation, repetition (greedy or lazy,
with a minimum count), numbered groups, and the word boundary. -/
inductive RE where
  | eps
  | cls (p : Char → Bool)
  | cat (a b : RE)
  | alt (a b : RE)
  | rep (r : RE) (mn : Nat) (greedy : Bool)
  | grp (n : Nat) (r : RE)
  | wb

/-- Matcher state: the remaining input (a suffix of the subject), the
character just before it (for word boundaries), and captured groups. -/
structure MState where
  rem : List Char
  prev : Option Char
  caps : List (Nat × List Char)
deriving Repr, DecidableEq

/-- All ways a regex can match a prefix of the remaining input, listed in
Python's backtracking preference order: the head of the list is the match
Python's engine reports.  Greedy repetition prefers more iterations, lazy
repetition fewer; alternation prefers its left branch.  Fuel bounds the
recursion; it is decremented on every call and chosen generously at the
entry points below. -/
def runRE : Nat → RE → MState → List MState
  | 0, _, _ => []
  | _ + 1, .eps, s => [s]
  | _ + 1, .cls p, s =>
    match s.rem with
    | [] => []
    | c :: rest => if p c then [⟨rest, some c, s.caps⟩] else []
  | fuel + 1, .cat a b, s => (runRE fuel a s).flatMap (runRE fuel b)
  | fuel + 1, .alt a b, s => runRE fuel a s ++ runRE fuel b s
  | fuel + 1, .rep r (mn + 1) g, s =>
    (runRE fuel r s).flatMap (runRE fuel (.rep r mn g))
  | fuel + 1, .rep r 0 g, s =>
    let more := (runRE fuel r s).flatMap fun s1 =>
      if s1.rem.length < s.rem.length then runRE fuel (.rep r 0 g) s1 else []
    if g then more ++ [s] else s :: more
  | fuel + 1, .grp n r, s =>
    (runRE fuel r s).map fun s1 =>
      ⟨s1.rem, s1.prev, (n, s.rem.take (s.rem.length - s1.rem.length)) :: s1.caps⟩
  | _ + 1, .wb, s =>
    let pw := match s.prev with | some c => isWordChar c | none => false
    let nw := match s.rem with | c :: _ => isWordChar c | [] => false
    if pw ≠ nw then [s] else []

/-- Fuel that is ample for the script's patterns on the given input. -/
def fuelFor (l : List Char) : Nat := 8 * l.length + 512

/-- Python re.match: the engine's preferred match anchored at the start. -/
def pymatch (re : RE) (l : List Char) : Option MState :=
  (runRE (fuelFor l) re ⟨l, none, []⟩).head?

/-- Scan for the leftmost position admitting a match (Python re.search).
Returns the suffix at which the match starts together with the match state.
`prev` is the character just before the current suffix. -/
def searchFrom (re : RE) : Option Char → List Char → Option (List Char × MState)
  | prev, [] =>
    ((runRE (fuelFor ([] : List Char)) re ⟨[], prev, []⟩).head?).map fun m => ([], m)
  | prev, c :: rest =>
    match (runRE (fuelFor (c :: rest)) re ⟨c :: rest, prev, []⟩).head? with
    | some m => some (c :: rest, m)
    | none => searchFrom re (some c) rest

/-- Python re.search from the start of the subject. -/
def pysearch (re : RE) (l : List Char) : Option (List Char × MState) :=
  searchFrom re none l

/-- Captured group text (empty when the group is unset). -/
def groupOf (m : MState) (n : Nat) : List Char :=
  ((m.caps.find? fun p => p.1 = n).map fun p => p.2).getD []

/-- Text consumed by a match that started when the remaining input was `t`. -/
def consumedOf (t : List Char) (m : MState) : List Char :=
  t.take (t.length - m.rem.length)

/-- Python re.findall: non-overlapping matches, scanning left to right;
an empty match advances by one character.  Fuel bounds the loop. -/
def findallFrom (re : RE) : Nat → Option Char → List Char → List (List Char)
  | 0, _, _ => []
  | fuel + 1, prev, l =>
    match searchFrom re prev l with
    | none => []
    | some (t, m) =>
      let u := consumedOf t m
      if u = [] then
        match t with
        | [] => []
        | c :: rest => findallFrom re fuel (some c) rest
      else u :: findallFrom re fuel m.prev m.rem

/-- Python re.findall from the start of the subject. -/
def pyFindall (re : RE) (l : List Char) : List (List Char) :=
  findallFrom re (l.length + 1) none l

/-- Python re.split: the pieces of the subject between matches. -/
def pySplitRE (re : RE) : Nat → Option Char → List Char → List (List Char)
  | 0, _, l => [l]
  | fuel + 1, prev, l =>
    match searchFrom re prev l with
    | none => [l]
    | some (t, m) =>
      let piece := l.take (l.length - t.length)
      if consumedOf t m = [] then [l]
      else piece :: pySplitRE re fuel m.prev m.rem

/-- Python re.split from the start of the subject. -/
def pySplit (re : RE) (l : List Char) : List (List Char) :=
  pySplitRE re (l.length + 1) none l

/-- A single literal character. -/
def chr (c : Char) : RE := .cls fun x => x = c

/-- A literal character under re.IGNORECASE (ASCII case pair). -/
def icls (c : Char) : RE := .cls fun x => x = c || x = c.toUpper

/-- A case-insensitive literal word. -/
def istr (w : List Char) : RE := w.foldr (fun c r => .cat (icls c) r) .eps

/-- The regex class backslash-s. -/
def wsRE : RE := .cls pyIsSpace

/-- Any character except a newline (the regex dot without DOTALL). -/
def dotRE : RE := .cls fun c => c ≠ '\n'

/-- Pattern `references:?(?:\s*\n)+([\s\S]+)` with IGNORECASE, used with
re.search to locate the references section (perplexity_client.py line 133). -/
def sectionRE : RE :=
  .cat (istr ("references".toList))
    (.cat (.alt (chr ':') .eps)
      (.cat (.rep (.cat (.rep wsRE 0 true) (chr '\n')) 1 true)
        (.grp 1 (.rep (.cls fun _ => true) 1 true))))

/-- The separator `(?:\s+-\s+|\s*\n\s*)` inside the numbered-line pattern. -/
def sepRE : RE :=
  .alt (.cat (.rep wsRE 1 true) (.cat (chr '-') (.rep wsRE 1 true)))
    (.cat (.rep wsRE 0 true) (.cat (chr '\n') (.rep wsRE 0 true)))

/-- The URL part `https?:\/\/\S+` (IGNORECASE). -/
def urlCoreRE : RE :=
  .cat (istr ("http".toList))
    (.cat (.alt (icls 's') .eps)
      (.cat (chr ':')
        (.cat (chr '/')
          (.cat (chr '/') (.rep (.cls fun c => !pyIsSpace c) 1 true)))))

/-- Pattern `^\d+\.\s+(.+?)(?:\s+-\s+|\s*\n\s*)(.+?)(?:\s+-\s+|\s*\n\s*)(https?:\/\/\S+)\b`
with IGNORECASE, matched against each reference line (line 144). -/
def structRE : RE :=
  .cat (.rep (.cls isDigitChar) 1 true)
    (.cat (chr '.')
      (.cat (.rep wsRE 1 true)
        (.cat (.grp 1 (.rep dotRE 1 false))
          (.cat sepRE
            (.cat (.grp 2 (.rep dotRE 1 false))
              (.cat sepRE (.cat (.grp 3 urlCoreRE) .wb)))))))

/-- Pattern `^(.*?)(https?:\/\/\S+)\b` with IGNORECASE (line 155). -/
def looseRE : RE :=
  .cat (.grp 1 (.rep dotRE 0 false)) (.cat (.grp 2 urlCoreRE) .wb)

/-- Pattern `\bhttps?:\/\/\S+\b` with IGNORECASE (line 170). -/
def urlFindRE : RE := .cat .wb (.cat urlCoreRE .wb)

/-- Pattern `[.!?]\s+` used by re.split on the surrounding text (line 180). -/
def sentenceSepRE : RE :=
  .cat (.cls fun c => c = '.' || c = '!' || c = '?') (.rep wsRE 1 true)

/-- A reference record as assembled by the script. -/
structure Reference where
  title : List Char
  snippet : List Char
  url : List Char
deriving Repr, DecidableEq

/-- References produced from one line of the references block: the body of
the for loop at lines 139-165 (structured numbered match, else the loose
URL match, else nothing). -/
def lineRefs (line : List Char) : List Reference :=
  if pyStrip line = [] then []
  else
    match pymatch structRE line with
    | some m =>
      [⟨pyStrip (groupOf m 1), pyStrip (groupOf m 2), pyStrip (groupOf m 3)⟩]
    | none =>
      match pymatch looseRE line with
      | some m =>
        if groupOf m 2 = [] then []
        else
          let remainingText := pyStrip (groupOf m 1)
          let splitIndex := remainingText.length / 2
          [⟨pyOr (pyStrip (remainingText.take splitIndex)) ("Reference".toList),
            pyOr (pyStrip (remainingText.drop splitIndex)) ("No snippet available".toList),
            groupOf m 2⟩]
      | none => []

/-- The global-fallback reference built for one URL found in the content
(lines 174-187): the up-to-150-character window before the first occurrence
of the URL string, its last sentence fragment as title, with defaults. -/
def fallbackRef (content url : List Char) : Reference :=
  let urlIndex := pyFind content url
  let surroundingText := pyStrip (pySlice content (max 0 (urlIndex - 150)) urlIndex)
  let sentenceParts := pySplit sentenceSepRE surroundingText
  let title :=
    match sentenceParts.getLast? with
    | some t => t
    | none => "Reference".toList
  ⟨pyOr title ("Reference".toList),
   pyOr surroundingText ("No snippet available".toList),
   url⟩

/-- The reference extraction heuristic, `extract_references` (lines 127-189). -/
def extract_references (content : List Char) : List Reference :=
  let references :=
    match pysearch sectionRE content with
    | some (_, m) =>
      if groupOf m 1 = [] then []
      else
        let referencesText := pyStrip (groupOf m 1)
        let referenceLines := splitOnChar '\n' referencesText
        referenceLines.foldl (fun acc line => acc ++ lineRefs line) []
    | none => []
  if references = [] then
    (pyFindall urlFindRE content).foldl (fun acc url => acc ++ [fallbackRef content url]) []
  else references

/-- Deriving the answer from the content, `perform_research` lines 225-228:
truncate at the first case-insensitive occurrence of "references" and strip,
or keep the whole content when there is none. -/
def deriveAnswer (content : List Char) : List Char :=
  match firstIdx (lowerList content) ("references".toList) with
  | some i => pyStrip (pySlice content 0 (i : Int))
  | none => content

/-- JSON values as decoded by json.loads (integer numbers suffice here). -/
inductive Json where
  | null
  | bool (b : Bool)
  | num (n : Int)
  | str (s : List Char)
  | arr (xs : List Json)
  | obj (kvs : List (List Char × Json))

/-- Lookup in a decoded JSON object (dict keys are unique after json.loads). -/
def jsonGet (kvs : List (List Char × Json)) (k : List Char) : Option Json :=
  (kvs.find? fun p => p.1 = k).map fun p => p.2

/-- Python truthiness of a decoded JSON value. -/
def pyTruthy : Json → Bool
  | .null => false
  | .bool b => b
  | .num n => n ≠ 0
  | .str s => s ≠ []
  | .arr [] => false
  | .arr (_ :: _) => true
  | .obj [] => false
  | .obj (_ :: _) => true

/-- The "data: " marker of server-sent event lines. -/
def dataMarker : List Char := ("data: ").toList

/-- The stripped payload of the terminal sentinel event. -/
def doneMarker : List Char := ("[DONE]").toList

/-- The invocation object's query key. -/
def queryKey : List Char := ("query").toList

/-- The invocation object's credential key. -/
def apiKeyKey : List Char := ("apiKey").toList

/-- Rendering used by f-string interpolation, str(); the theorems below rely
only on the scalar cases (containers get a schematic rendering). -/
def pyStr : Json → List Char
  | .null => "None".toList
  | .bool true => "True".toList
  | .bool false => "False".toList
  | .num n => (toString n).toList
  | .str s => s
  | .arr _ => "<list>".toList
  | .obj _ => "<dict>".toList

/-- Python exception classes the content-extraction expression can raise,
with the (non-empty) text str(e) carries for them. -/
inductive PyErr where
  | attributeError
  | indexError
  | keyError
  | typeError
deriving Repr, DecidableEq

/-- Representative str(e) for each exception class; all non-empty. -/
def PyErr.msg : PyErr → List Char
  | .attributeError => "object has no attribute get".toList
  | .indexError => "list index out of range".toList
  | .keyError => "0".toList
  | .typeError => "object is not subscriptable".toList

/-- The response object's choices key. -/
def choicesKey : List Char := ("choices").toList

/-- The choice object's message key. -/
def messageKey : List Char := ("message").toList

/-- The message object's content key. -/
def contentKey : List Char := ("content").toList

/-- Python .get(key, default) under dynamic typing: absent keys take the
default, but a non-dict receiver raises AttributeError. -/
def pyGetKey (v : Json) (k : List Char) (d : Json) : Except PyErr Json :=
  match v with
  | .obj kvs => .ok ((jsonGet kvs k).getD d)
  | _ => .error .attributeError

/-- Python v[0] under dynamic typing: IndexError on an empty sequence,
KeyError on a dict, TypeError on scalars. -/
def pyIndexZero (v : Json) : Except PyErr Json :=
  match v with
  | .arr (x :: _) => .ok x
  | .arr [] => .error .indexError
  | .str (c :: _) => .ok (.str [c])
  | .str [] => .error .indexError
  | .obj _ => .error .keyError
  | _ => .error .typeError

/-- The content extraction at line 217:
response.get("choices", [dict()])[0].get("message", dict()).get("content", ""). -/
def pyExtractContent (resp : Json) : Except PyErr Json :=
  match pyGetKey resp choicesKey (.arr [.obj []]) with
  | .error e => .error e
  | .ok choices =>
    match pyIndexZero choices with
    | .error e => .error e
    | .ok first =>
      match pyGetKey first messageKey (.obj []) with
      | .error e => .error e
      | .ok message => pyGetKey message contentKey (.str [])

/-- The normalized result object the script prints. -/
structure ResearchResult where
  answer : List Char
  references : List Reference
  error : Option (List Char)
  simulated : Bool
deriving Repr, DecidableEq

/-- The uniform error shape assembled in the except branch (lines 242-247). -/
def errorResult (e : List Char) : ResearchResult :=
  ⟨("Error performing research: ").toList ++ e, [], some e, true⟩

/-- The ValueError message raised by the client constructor (lines 38-41). -/
def noKeyMsg : List Char :=
  ("API key must be provided either as an argument or as the PERPLEXITY_API_KEY environment variable.").toList

/-- Truthiness of an optional string credential (None and "" are falsy). -/
def truthyKey : Option (List Char) → Bool
  | none => false
  | some s => s ≠ []

/-- The two-message prompt built for the research query (lines 200-209). -/
def researchMessages (query : List Char) : List (List Char × List Char) :=
  [(("system").toList,
    ("You are a research assistant that provides comprehensive, factual, and up-to-date information. Format citations at the end as a numbered list with titles, snippets, and URLs.").toList),
   (("user").toList,
    ("Research this topic thoroughly with citations: ").toList ++ query)]

/-- The orchestrator `perform_research` (lines 191-247).  The black-box
upstream call is a parameter: `net` maps the messages chat_completion is
given to what it would do (a decoded response, or the message of the
transport exception it raises); `envKey` models the environment credential
fallback.  Every exception in the try block is caught into the uniform
error result. -/
def perform_research (query : List Char) (apiKey envKey : Option (List Char))
    (net : List (List Char × List Char) → Except (List Char) Json) : ResearchResult :=
  let effectiveKey := if truthyKey apiKey then apiKey else envKey
  if ¬ truthyKey effectiveKey then errorResult noKeyMsg
  else
    match net (researchMessages query) with
    | .error e => errorResult e
    | .ok resp =>
      match pyExtractContent resp with
      | .error pe => errorResult pe.msg
      | .ok (.str content) =>
        ⟨deriveAnswer content, extract_references content, none, false⟩
      | .ok _ => errorResult PyErr.typeError.msg

/-- Outcome of the entry point: the payload printed, the exit code, and
whether perform_research was invoked at all. -/
structure MainOut where
  result : ResearchResult
  exitCode : Nat
  calledResearch : Bool
deriving Repr, DecidableEq

/-- The fixed payload for a missing query (lines 276-281). -/
def noQueryResult : ResearchResult :=
  ⟨("Error: No query provided to Python script").toList, [],
   some (("No query provided").toList), true⟩

/-- The canned simulated payload for a missing API key (lines 287-298). -/
def simulatedResult (query : Json) : ResearchResult :=
  ⟨("Simulated response for: ").toList ++ pyStr query,
   [⟨("Simulated Reference").toList,
     ("This is a simulated reference snippet.").toList,
     ("https://example.com/simulated").toList⟩],
   some (("No API key provided").toList), true⟩

/-- The payload printed when the handler body itself raises (lines 310-315),
with the interpolated exception text abstracted. -/
def unexpectedResult (e : List Char) : ResearchResult :=
  ⟨("Error in Python script: ").toList ++ e, [],
   some (("Unexpected error in Python script: ").toList ++ e), true⟩

/-- The `__main__` handler after json.loads succeeded (lines 267-305),
parameterized by what perform_research would return if invoked.  A non-object
input makes input_data.get raise, landing in the outer except branch. -/
def runMain (inputData : Json) (research : ResearchResult) : MainOut :=
  match inputData with
  | .obj kvs =>
    let query := (jsonGet kvs queryKey).getD .null
    let apiKey := (jsonGet kvs apiKeyKey).getD .null
    if ¬ pyTruthy query then ⟨noQueryResult, 1, false⟩
    else if ¬ pyTruthy apiKey then ⟨simulatedResult query, 0, false⟩
    else ⟨research, 0, true⟩
  | _ => ⟨unexpectedResult PyErr.attributeError.msg, 1, false⟩

/-- One iteration of the loop in _stream_response (lines 120-125): a
nonempty line carrying the "data: " marker contributes its payload unless
the stripped payload is the [DONE] sentinel. -/
def streamStep (acc : List (List Char)) (line : List Char) : List (List Char) :=
  if line ≠ [] then
    if startsW dataMarker line then
      let chunk := line.drop 6
      if pyStrip chunk ≠ doneMarker then acc ++ [chunk] else acc
    else acc
  else acc

/-- The stream filter in _stream_response (lines 120-125); iteration
continues past the sentinel. -/
def streamYields (lines : List (List Char)) : List (List Char) :=
  lines.foldl streamStep []

/-- Predicate for lines the stream filter keeps: nonempty, marked with
"data: ", and whose stripped payload is not the sentinel. -/
def isDataLine (line : List Char) : Bool :=
  !line.isEmpty && startsW dataMarker line
    && !(pyStrip (line.drop 6) == doneMarker)

/-- Syntactic absence of capture groups. -/
def grpFree : RE → Bool
  | .eps => true
  | .cls _ => true
  | .wb => true
  | .cat a b => grpFree a && grpFree b
  | .alt a b => grpFree a && grpFree b
  | .rep r _ _ => grpFree r
  | .grp _ _ => false

/-- Fallback reference construction as the amended clause describes it: the
window is the trimmed text of up to 150 characters before the FIRST
occurrence of the URL string in the whole text (also for repeated URLs), the
title its last sentence fragment, with the default strings when empty. -/
def specFallbackRef (content url : List Char) : Reference :=
  let i := (firstIdx content url).getD 0
  let window := pyStrip ((content.take i).drop (i - 150))
  let fragments := pySplit sentenceSepRE window
  let title :=
    match fragments.getLast? with
    | some t => t
    | none => ("Reference").toList
  ⟨pyOr title ("Reference").toList, pyOr window ("No snippet available").toList, url⟩

/-- One loop step appends the kept payload, if any. -/
theorem streamStep_eq (acc : List (List Char)) (line : List Char) :
    streamStep acc line = acc ++ (if isDataLine line then [line.drop 6] else []) := by
  by_cases hl : line = [] <;> rcases hs : startsW dataMarker line with _ | _
    <;> by_cases hd : pyStrip (line.drop 6) = doneMarker
    <;> simp [streamStep, isDataLine, hl, hs, hd]

/-- The stream filter accumulates exactly the payloads of the kept lines. -/
theorem streamYields_acc (lines : List (List Char)) (acc : List (List Char)) :
    lines.foldl streamStep acc
      = acc ++ (lines.filter isDataLine).map (fun l => l.drop 6) := by
  induction lines generalizing acc with
  | nil => simp
  | cons l ls ih =>
    rw [List.foldl_cons, streamStep_eq, ih, List.filter_cons]
    by_cases h : isDataLine l <;> simp [h]

/-- Lookup in the empty object. -/
theorem jsonGet_nil (k : List Char) : jsonGet [] k = none := rfl

/-- A head? element is a member. -/
theorem head?_mem {α : Type} {l : List α} {a : α} (h : l.head? = some a) : a ∈ l := by
  cases l with
  | nil => cases h
  | cons x xs =>
    simp only [List.head?_cons, Option.some.injEq] at h
    exact h ▸ List.mem_cons_self x xs

/-- A contiguous piece of a suffix is a contiguous piece of the whole. -/
theorem subseg_in_suffix {t l u v : List Char} (hl : l = v ++ t)
    (h : ∃ a b, t = a ++ u ++ b) : ∃ a b, l = a ++ u ++ b := by
  obtain ⟨a, b, rfl⟩ := h
  exact ⟨v ++ a, b, by rw [hl]; simp [List.append_assoc]⟩

/-- Inversion for the empty regex. -/
theorem mem_runRE_eps {fuel : Nat} {s s' : MState} (h : s' ∈ runRE fuel .eps s) :
    s' = s := by
  cases fuel with
  | zero => cases h
  | succ f => simpa [runRE] using h

/-- Inversion for a word boundary: it consumes nothing. -/
theorem mem_runRE_wb {fuel : Nat} {s s' : MState} (h : s' ∈ runRE fuel .wb s) :
    s' = s := by
  cases fuel with
  | zero => cases h
  | succ f =>
    simp only [runRE] at h
    split at h
    · simpa using h
    · cases h

/-- Inversion for a character class: one matching character is consumed. -/
theorem mem_runRE_cls {fuel : Nat} {p : Char → Bool} {s s' : MState}
    (h : s' ∈ runRE fuel (.cls p) s) :
    ∃ c rest, s.rem = c :: rest ∧ p c = true ∧ s' = ⟨rest, some c, s.caps⟩ := by
  cases fuel with
  | zero => cases h
  | succ f =>
    simp only [runRE] at h
    rcases hrem : s.rem with _ | ⟨c, rest⟩
    · rw [hrem] at h; cases h
    · rw [hrem] at h
      by_cases hp : p c = true
      · simp only [hp, if_true] at h
        exact ⟨c, rest, rfl, hp, by simpa using h⟩
      · simp only [hp, if_false, Bool.false_eq_true] at h
        cases h

/-- Inversion for concatenation. -/
theorem mem_runRE_cat {fuel : Nat} {a b : RE} {s s' : MState}
    (h : s' ∈ runRE fuel (.cat a b) s) :
    ∃ s1, s1 ∈ runRE (fuel - 1) a s ∧ s' ∈ runRE (fuel - 1) b s1 := by
  cases fuel with
  | zero => cases h
  | succ f =>
    simp only [runRE, List.mem_flatMap] at h
    obtain ⟨s1, h1, h2⟩ := h
    exact ⟨s1, h1, h2⟩

/-- Inversion for alternation. -/
theorem mem_runRE_alt {fuel : Nat} {a b : RE} {s s' : MState}
    (h : s' ∈ runRE fuel (.alt a b) s) :
    s' ∈ runRE (fuel - 1) a s ∨ s' ∈ runRE (fuel - 1) b s := by
  cases fuel with
  | zero => cases h
  | succ f =>
    simp only [runRE, List.mem_append] at h
    exact h

/-- Inversion for a group: the capture is the consumed slice. -/
theorem mem_runRE_grp {fuel n : Nat} {r : RE} {s s' : MState}
    (h : s' ∈ runRE fuel (.grp n r) s) :
    ∃ s1, s1 ∈ runRE (fuel - 1) r s
      ∧ s' = ⟨s1.rem, s1.prev,
          (n, s.rem.take (s.rem.length - s1.rem.length)) :: s1.caps⟩ := by
  cases fuel with
  | zero => cases h
  | succ f =>
    simp only [runRE, List.mem_map] at h
    obtain ⟨s1, h1, h2⟩ := h
    exact ⟨s1, h1, h2.symm⟩

/-- A group-free regex consumes a prefix and leaves the captures untouched. -/
theorem grpFree_consumed {fuel : Nat} {re : RE} {s s' : MState}
    (hg : grpFree re = true) (h : s' ∈ runRE fuel re s) :
    (∃ u, s.rem = u ++ s'.rem) ∧ s'.caps = s.caps := by
  induction fuel generalizing re s s' with
  | zero => cases h
  | succ f ih =>
    cases re with
    | eps => obtain rfl := mem_runRE_eps h; exact ⟨⟨[], rfl⟩, rfl⟩
    | wb => obtain rfl := mem_runRE_wb h; exact ⟨⟨[], rfl⟩, rfl⟩
    | cls p =>
      obtain ⟨c, rest, hrem, hp, rfl⟩ := mem_runRE_cls h
      exact ⟨⟨[c], by simp [hrem]⟩, rfl⟩
    | grp n r => simp [grpFree] at hg
    | cat a b =>
      obtain ⟨s1, h1, h2⟩ := mem_runRE_cat h
      simp only [grpFree, Bool.and_eq_true] at hg
      obtain ⟨⟨u1, e1⟩, c1⟩ := ih hg.1 h1
      obtain ⟨⟨u2, e2⟩, c2⟩ := ih hg.2 h2
      exact ⟨⟨u1 ++ u2, by rw [e1, e2, List.append_assoc]⟩, c2.trans c1⟩
    | alt a b =>
      simp only [grpFree, Bool.and_eq_true] at hg
      rcases mem_runRE_alt h with h1 | h1
      · exact ih hg.1 h1
      · exact ih hg.2 h1
    | rep r mn g =>
      simp only [grpFree] at hg
      cases mn with
      | succ mn' =>
        simp only [runRE, List.mem_flatMap] at h
        obtain ⟨s1, h1, h2⟩ := h
        obtain ⟨⟨u1, e1⟩, c1⟩ := ih hg h1
        obtain ⟨⟨u2, e2⟩, c2⟩ := ih (by simpa [grpFree] using hg) h2
        exact ⟨⟨u1 ++ u2, by rw [e1, e2, List.append_assoc]⟩, c2.trans c1⟩
      | zero =>
        simp only [runRE] at h
        have hsplit : s' = s ∨ ∃ s1, s1 ∈ runRE f r s ∧
            s1.rem.length < s.rem.length ∧ s' ∈ runRE f (.rep r 0 g) s1 := by
          rcases g with _ | _
          · simp at h
            rcases h with h | ⟨s1, h1, hlt, h2⟩
            · exact Or.inl h
            · exact Or.inr ⟨s1, h1, hlt, h2⟩
          · simp at h
            rcases h with ⟨s1, h1, hlt, h2⟩ | h
            · exact Or.inr ⟨s1, h1, hlt, h2⟩
            · exact Or.inl h
        rcases hsplit with rfl | ⟨s1, h1, _, h2⟩
        · exact ⟨⟨[], rfl⟩, rfl⟩
        · obtain ⟨⟨u1, e1⟩, c1⟩ := ih hg h1
          obtain ⟨⟨u2, e2⟩, c2⟩ := ih (by simpa [grpFree] using hg) h2
          exact ⟨⟨u1 ++ u2, by rw [e1, e2, List.append_assoc]⟩, c2.trans c1⟩

/-- Soundness: any match consumes a prefix, and every newly recorded capture
is a contiguous piece of the remaining input at entry. -/
theorem caps_subseg {fuel : Nat} {re : RE} {s s' : MState}
    (h : s' ∈ runRE fuel re s) :
    (∃ u, s.rem = u ++ s'.rem)
      ∧ ∃ new, s'.caps = new ++ s.caps
        ∧ ∀ q ∈ new, ∃ a b, s.rem = a ++ q.2 ++ b := by
  induction fuel generalizing re s s' with
  | zero => cases h
  | succ f ih =>
    cases re with
    | eps => obtain rfl := mem_runRE_eps h; exact ⟨⟨[], rfl⟩, [], rfl, by simp⟩
    | wb => obtain rfl := mem_runRE_wb h; exact ⟨⟨[], rfl⟩, [], rfl, by simp⟩
    | cls p =>
      obtain ⟨c, rest, hrem, hp, rfl⟩ := mem_runRE_cls h
      exact ⟨⟨[c], by simp [hrem]⟩, [], rfl, by simp⟩
    | cat a b =>
      obtain ⟨s1, h1, h2⟩ := mem_runRE_cat h
      obtain ⟨⟨u1, e1⟩, new1, hc1, hs1⟩ := ih h1
      obtain ⟨⟨u2, e2⟩, new2, hc2, hs2⟩ := ih h2
      refine ⟨⟨u1 ++ u2, by rw [e1, e2, List.append_assoc]⟩,
        new2 ++ new1, by rw [hc2, hc1, List.append_assoc], ?_⟩
      intro q hq
      rcases List.mem_append.mp hq with hq | hq
      · exact subseg_in_suffix e1 (hs2 q hq)
      · exact hs1 q hq
    | alt a b =>
      rcases mem_runRE_alt h with h1 | h1 <;> exact ih h1
    | grp n r =>
      obtain ⟨s1, h1, rfl⟩ := mem_runRE_grp h
      obtain ⟨⟨u1, e1⟩, new1, hc1, hs1⟩ := ih h1
      refine ⟨⟨u1, e1⟩,
        (n, s.rem.take (s.rem.length - s1.rem.length)) :: new1,
        by simp [hc1], ?_⟩
      intro q hq
      rcases List.mem_cons.mp hq with rfl | hq
      · exact ⟨[], s.rem.drop (s.rem.length - s1.rem.length),
          by simp [List.take_append_drop]⟩
      · exact hs1 q hq
    | rep r mn g =>
      cases mn with
      | succ mn' =>
        simp only [runRE, List.mem_flatMap] at h
        obtain ⟨s1, h1, h2⟩ := h
        obtain ⟨⟨u1, e1⟩, new1, hc1, hs1⟩ := ih h1
        obtain ⟨⟨u2, e2⟩, new2, hc2, hs2⟩ := ih h2
        refine ⟨⟨u1 ++ u2, by rw [e1, e2, List.append_assoc]⟩,
          new2 ++ new1, by rw [hc2, hc1, List.append_assoc], ?_⟩
        intro q hq
        rcases List.mem_append.mp hq with hq | hq
        · exact subseg_in_suffix e1 (hs2 q hq)
        · exact hs1 q hq
      | zero =>
        simp only [runRE] at h
        have hsplit : s' = s ∨ ∃ s1, s1 ∈ runRE f r s ∧
            s1.rem.length < s.rem.length ∧ s' ∈ runRE f (.rep r 0 g) s1 := by
          rcases g with _ | _
          · simp at h
            rcases h with h | ⟨s1, h1, hlt, h2⟩
            · exact Or.inl h
            · exact Or.inr ⟨s1, h1, hlt, h2⟩
          · simp at h
            rcases h with ⟨s1, h1, hlt, h2⟩ | h
            · exact Or.inr ⟨s1, h1, hlt, h2⟩
            · exact Or.inl h
        rcases hsplit with rfl | ⟨s1, h1, _, h2⟩
        · exact ⟨⟨[], rfl⟩, [], rfl, by simp⟩
        · obtain ⟨⟨u1, e1⟩, new1, hc1, hs1⟩ := ih h1
          obtain ⟨⟨u2, e2⟩, new2, hc2, hs2⟩ := ih h2
          refine ⟨⟨u1 ++ u2, by rw [e1, e2, List.append_assoc]⟩,
            new2 ++ new1, by rw [hc2, hc1, List.append_assoc], ?_⟩
          intro q hq
          rcases List.mem_append.mp hq with hq | hq
          · exact subseg_in_suffix e1 (hs2 q hq)
          · exact hs1 q hq

/-- Inversion for repetition of a character class: the consumed prefix is a
run of matching characters, at least the minimum count long. -/
theorem mem_runRE_repcls {fuel : Nat} {p : Char → Bool} {mn : Nat} {g : Bool}
    {s s' : MState} (h : s' ∈ runRE fuel (.rep (.cls p) mn g) s) :
    ∃ u, s.rem = u ++ s'.rem ∧ (∀ c ∈ u, p c = true) ∧ mn ≤ u.length
      ∧ s'.caps = s.caps := by
  induction fuel generalizing mn s s' with
  | zero => cases h
  | succ f ih =>
    cases mn with
    | succ mn' =>
      simp only [runRE, List.mem_flatMap] at h
      obtain ⟨s1, h1, h2⟩ := h
      obtain ⟨c, rest, hrem, hp, rfl⟩ := mem_runRE_cls h1
      obtain ⟨u, e, hu, hlen, hcaps⟩ := ih h2
      refine ⟨c :: u, by rw [hrem]; exact congrArg (List.cons c) e,
        ?_, by simpa using hlen, hcaps⟩
      intro d hd
      rcases List.mem_cons.mp hd with rfl | hd
      · exact hp
      · exact hu d hd
    | zero =>
      simp only [runRE] at h
      have hsplit : s' = s ∨ ∃ s1, s1 ∈ runRE f (.cls p) s ∧
          s1.rem.length < s.rem.length ∧ s' ∈ runRE f (.rep (.cls p) 0 g) s1 := by
        rcases g with _ | _
        · simp at h
          rcases h with h | ⟨s1, h1, hlt, h2⟩
          · exact Or.inl h
          · exact Or.inr ⟨s1, h1, hlt, h2⟩
        · simp at h
          rcases h with ⟨s1, h1, hlt, h2⟩ | h
          · exact Or.inr ⟨s1, h1, hlt, h2⟩
          · exact Or.inl h
      rcases hsplit with rfl | ⟨s1, h1, _, h2⟩
      · exact ⟨[], rfl, by simp, by omega, rfl⟩
      · obtain ⟨c, rest, hrem, hp, rfl⟩ := mem_runRE_cls h1
        obtain ⟨u, e, hu, hlen, hcaps⟩ := ih h2
        refine ⟨c :: u, by rw [hrem]; exact congrArg (List.cons c) e,
          ?_, by omega, hcaps⟩
        intro d hd
        rcases List.mem_cons.mp hd with rfl | hd
        · exact hp
        · exact hu d hd

/-- Case facts for a character matched by a case-pair class. -/
theorem icls_cases {c l : Char} (h : (decide (c = l) || decide (c = l.toUpper)) = true) :
    c = l ∨ c = l.toUpper := by
  simpa using h

/-- Inversion for the URL core pattern: it consumes a non-empty,
whitespace-free prefix that starts, case-insensitively, with http:// or
https://, and records no captures. -/
theorem mem_runRE_url {fuel : Nat} {s s' : MState} (h : s' ∈ runRE fuel urlCoreRE s) :
    ∃ u, s.rem = u ++ s'.rem ∧ u ≠ [] ∧ s'.caps = s.caps
      ∧ (startsW (("http://").toList) (lowerList u) = true
        ∨ startsW (("https://").toList) (lowerList u) = true)
      ∧ ∀ c ∈ u, pyIsSpace c = false := by
  obtain ⟨sA, hA, hB⟩ := mem_runRE_cat h
  obtain ⟨s1x, h1, hA2⟩ := mem_runRE_cat hA
  obtain ⟨c1, r1, hrem1, hp1, rfl⟩ := mem_runRE_cls h1
  obtain ⟨s2x, h2, hA3⟩ := mem_runRE_cat hA2
  obtain ⟨c2, r2, hrem2, hp2, rfl⟩ := mem_runRE_cls h2
  obtain ⟨s3x, h3, hA4⟩ := mem_runRE_cat hA3
  obtain ⟨c3, r3, hrem3, hp3, rfl⟩ := mem_runRE_cls h3
  obtain ⟨s4x, h4, hA5⟩ := mem_runRE_cat hA4
  obtain ⟨c4, r4, hrem4, hp4, rfl⟩ := mem_runRE_cls h4
  obtain rfl := mem_runRE_eps hA5
  obtain ⟨sB, hS, hC⟩ := mem_runRE_cat hB
  obtain ⟨sC, hco, hD⟩ := mem_runRE_cat hC
  obtain ⟨c6, r6, hrem6, hp6, rfl⟩ := mem_runRE_cls hco
  obtain ⟨sD, hsl1, hE⟩ := mem_runRE_cat hD
  obtain ⟨c7, r7, hrem7, hp7, rfl⟩ := mem_runRE_cls hsl1
  obtain ⟨sE, hsl2, hF⟩ := mem_runRE_cat hE
  obtain ⟨c8, r8, hrem8, hp8, rfl⟩ := mem_runRE_cls hsl2
  obtain ⟨v, hremv, hv, hvlen, hvcaps⟩ := mem_runRE_repcls hF
  obtain rfl : c6 = ':' := by simpa using hp6
  obtain rfl : c7 = '/' := by simpa using hp7
  obtain rfl : c8 = '/' := by simpa using hp8
  have hl1 : c1.toLower = 'h' := by rcases icls_cases hp1 with rfl | rfl <;> decide
  have hl2 : c2.toLower = 't' := by rcases icls_cases hp2 with rfl | rfl <;> decide
  have hl3 : c3.toLower = 't' := by rcases icls_cases hp3 with rfl | rfl <;> decide
  have hl4 : c4.toLower = 'p' := by rcases icls_cases hp4 with rfl | rfl <;> decide
  have hns1 : pyIsSpace c1 = false := by rcases icls_cases hp1 with rfl | rfl <;> decide
  have hns2 : pyIsSpace c2 = false := by rcases icls_cases hp2 with rfl | rfl <;> decide
  have hns3 : pyIsSpace c3 = false := by rcases icls_cases hp3 with rfl | rfl <;> decide
  have hns4 : pyIsSpace c4 = false := by rcases icls_cases hp4 with rfl | rfl <;> decide
  rcases mem_runRE_alt hS with hS5 | hS5
  · obtain ⟨c5, r5, hrem5, hp5, rfl⟩ := mem_runRE_cls hS5
    dsimp only at hrem2 hrem3 hrem4 hrem5 hrem6 hrem7 hrem8 hremv hvcaps
    have hl5 : c5.toLower = 's' := by rcases icls_cases hp5 with rfl | rfl <;> decide
    have hns5 : pyIsSpace c5 = false := by rcases icls_cases hp5 with rfl | rfl <;> decide
    refine ⟨c1 :: c2 :: c3 :: c4 :: c5 :: ':' :: '/' :: '/' :: v, ?_, by simp, ?_, ?_, ?_⟩
    · simp only [hrem1, hrem2, hrem3, hrem4, hrem5, hrem6, hrem7, hrem8, hremv,
        List.cons_append]
    · exact hvcaps
    · right
      simp [startsW, lowerList, hl1, hl2, hl3, hl4, hl5]
    · intro c hc
      simp only [List.mem_cons] at hc
      rcases hc with rfl | rfl | rfl | rfl | rfl | rfl | rfl | rfl | hc
      · exact hns1
      · exact hns2
      · exact hns3
      · exact hns4
      · exact hns5
      · decide
      · decide
      · decide
      · have := hv c hc
        simpa using this
  · obtain rfl := mem_runRE_eps hS5
    dsimp only at hrem2 hrem3 hrem4 hrem6 hrem7 hrem8 hremv hvcaps
    refine ⟨c1 :: c2 :: c3 :: c4 :: ':' :: '/' :: '/' :: v, ?_, by simp, ?_, ?_, ?_⟩
    · simp only [hrem1, hrem2, hrem3, hrem4, hrem6, hrem7, hrem8, hremv,
        List.cons_append]
    · exact hvcaps
    · left
      simp [startsW, lowerList, hl1, hl2, hl3, hl4]
    · intro c hc
      simp only [List.mem_cons] at hc
      rcases hc with rfl | rfl | rfl | rfl | rfl | rfl | rfl | hc
      · exact hns1
      · exact hns2
      · exact hns3
      · exact hns4
      · decide
      · decide
      · decide
      · have := hv c hc
        simpa using this

/-- A successful search starts at some suffix of the subject, with empty
initial captures. -/
theorem searchFrom_some {re : RE} {t : List Char} {m : MState} :
    ∀ (l : List Char) (prev : Option Char), searchFrom re prev l = some (t, m) →
    (∃ a, l = a ++ t) ∧ ∃ pv, m ∈ runRE (fuelFor t) re ⟨t, pv, []⟩ := by
  intro l
  induction l with
  | nil =>
    intro prev h
    unfold searchFrom at h
    rcases hh : (runRE (fuelFor ([] : List Char)) re ⟨[], prev, []⟩).head? with _ | m'
    · rw [hh] at h; cases h
    · rw [hh] at h
      simp only [Option.map_some', Option.some.injEq, Prod.mk.injEq] at h
      obtain ⟨rfl, rfl⟩ := h
      exact ⟨⟨[], rfl⟩, prev, head?_mem hh⟩
  | cons c rest ih =>
    intro prev h
    unfold searchFrom at h
    rcases hh : (runRE (fuelFor (c :: rest)) re ⟨c :: rest, prev, []⟩).head? with _ | m'
    · rw [hh] at h
      obtain ⟨⟨a, ha⟩, pv, hm⟩ := ih (some c) h
      exact ⟨⟨c :: a, by rw [ha]; rfl⟩, pv, hm⟩
    · rw [hh] at h
      simp only [Option.some.injEq, Prod.mk.injEq] at h
      obtain ⟨rfl, rfl⟩ := h
      exact ⟨⟨[], rfl⟩, prev, head?_mem hh⟩

/-- Every string findall returns is the text a match of the pattern
consumed at some suffix of the subject. -/
theorem findallFrom_spec {re : RE} :
    ∀ (fuel : Nat) (prev : Option Char) (l u : List Char),
    u ∈ findallFrom re fuel prev l →
    ∃ t m pv, (∃ a, l = a ++ t) ∧ m ∈ runRE (fuelFor t) re ⟨t, pv, []⟩
      ∧ u = consumedOf t m := by
  intro fuel
  induction fuel with
  | zero => intro prev l u h; cases h
  | succ f ih =>
    intro prev l u h
    unfold findallFrom at h
    rcases hs : searchFrom re prev l with _ | ⟨t0, m0⟩
    · rw [hs] at h; cases h
    · rw [hs] at h
      dsimp only at h
      by_cases hu0 : consumedOf t0 m0 = []
      · rw [if_pos hu0] at h
        rcases ht0 : t0 with _ | ⟨c, rest⟩
        · rw [ht0] at h; cases h
        · rw [ht0] at h
          obtain ⟨t, mm, pv, ⟨a, ha⟩, hm, hu⟩ := ih _ _ _ h
          obtain ⟨⟨a0, ha0⟩, _⟩ := searchFrom_some l prev hs
          have hl : l = (a0 ++ c :: a) ++ t := by
            rw [ha0, ht0, ha]; simp
          exact ⟨t, mm, pv, ⟨a0 ++ c :: a, hl⟩, hm, hu⟩
      · rw [if_neg hu0] at h
        rcases List.mem_cons.mp h with rfl | h
        · obtain ⟨⟨a0, ha0⟩, pv, hm⟩ := searchFrom_some l prev hs
          exact ⟨t0, m0, pv, ⟨a0, ha0⟩, hm, rfl⟩
        · obtain ⟨t, mm, pv, ⟨a, ha⟩, hm, hu⟩ := ih _ _ _ h
          obtain ⟨⟨a0, ha0⟩, pv0, hm0⟩ := searchFrom_some l prev hs
          obtain ⟨⟨v, hv⟩, _⟩ := caps_subseg hm0
          have hl : l = (a0 ++ v ++ a) ++ t := by
            rw [ha0, show t0 = v ++ m0.rem from hv, ha]
            simp [List.append_assoc]
          exact ⟨t, mm, pv, ⟨a0 ++ v ++ a, hl⟩, hm, hu⟩

/-- The split list is never empty and its head is a prefix. -/
theorem splitOnChar_shape (sep : Char) (l : List Char) :
    ∃ p ps, splitOnChar sep l = p :: ps ∧ ∃ b, l = p ++ b := by
  induction l with
  | nil => exact ⟨[], [], rfl, [], rfl⟩
  | cons c rest ih =>
    obtain ⟨p, ps, hsplit, b, hb⟩ := ih
    by_cases hc : c = sep
    · exact ⟨[], splitOnChar sep rest, by simp [splitOnChar, hc], c :: rest, rfl⟩
    · refine ⟨c :: p, ps, by simp [splitOnChar, hc, hsplit], b, by rw [hb]; rfl⟩

/-- Every piece of a character split is a contiguous piece of the subject. -/
theorem splitOnChar_subseg (sep : Char) :
    ∀ (l piece : List Char), piece ∈ splitOnChar sep l → ∃ a b, l = a ++ piece ++ b := by
  intro l
  induction l with
  | nil =>
    intro piece h
    simp only [splitOnChar, List.mem_singleton] at h
    subst h
    exact ⟨[], [], rfl⟩
  | cons c rest ih =>
    intro piece h
    by_cases hc : c = sep
    · rw [show splitOnChar sep (c :: rest) = [] :: splitOnChar sep rest from by
        simp [splitOnChar, hc]] at h
      rcases List.mem_cons.mp h with rfl | h
      · exact ⟨[], c :: rest, rfl⟩
      · obtain ⟨a, b, hab⟩ := ih piece h
        exact ⟨c :: a, b, by rw [hab]; rfl⟩
    · obtain ⟨p, ps, hsplit, b0, hb0⟩ := splitOnChar_shape sep rest
      rw [show splitOnChar sep (c :: rest) = (c :: p) :: ps from by
        simp [splitOnChar, hc, hsplit]] at h
      rcases List.mem_cons.mp h with rfl | h
      · exact ⟨[], b0, by rw [hb0]; rfl⟩
      · have hmem : piece ∈ splitOnChar sep rest := by
          rw [hsplit]; exact List.mem_cons_of_mem _ h
        obtain ⟨a, b, hab⟩ := ih piece hmem
        exact ⟨c :: a, b, by rw [hab]; rfl⟩

/-- A group value is either empty or the value of a recorded capture. -/
theorem groupOf_eq_or_mem (m : MState) (n : Nat) :
    groupOf m n = [] ∨ ∃ q ∈ m.caps, q.2 = groupOf m n := by
  rcases hf : m.caps.find? (fun p => p.1 = n) with _ | q
  · left
    simp [groupOf, hf]
  · right
    refine ⟨q, List.mem_of_find?_eq_some hf, ?_⟩
    simp [groupOf, hf]

/-- A list of characters none of which is whitespace strips to itself. -/
theorem pyStrip_eq_self {l : List Char} (h : ∀ c ∈ l, pyIsSpace c = false) :
    pyStrip l = l := by
  have hdw : ∀ (l' : List Char), (∀ c ∈ l', pyIsSpace c = false) →
      l'.dropWhile pyIsSpace = l' := by
    intro l' hl
    cases l' with
    | nil => rfl
    | cons c cs => simp [List.dropWhile_cons, hl c (by simp)]
  unfold pyStrip
  rw [hdw l h, hdw l.reverse (fun c hc => h c (List.mem_reverse.mp hc)),
    List.reverse_reverse]

/-- Group 3 of a structured-line match is a whitespace-free URL-shaped
contiguous piece of the line. -/
theorem structRE_group3 {line : List Char} {m : MState}
    (h : pymatch structRE line = some m) :
    ∃ u, groupOf m 3 = u ∧ u ≠ []
      ∧ (startsW (("http://").toList) (lowerList u) = true
        ∨ startsW (("https://").toList) (lowerList u) = true)
      ∧ (∃ a b, line = a ++ u ++ b)
      ∧ ∀ c ∈ u, pyIsSpace c = false := by
  have hm : m ∈ runRE (fuelFor line) structRE ⟨line, none, []⟩ := head?_mem h
  obtain ⟨s1, hd, h1⟩ := mem_runRE_cat hm
  obtain ⟨s2, hdot, h2⟩ := mem_runRE_cat h1
  obtain ⟨s3, hws, h3⟩ := mem_runRE_cat h2
  obtain ⟨s4, hg1, h4⟩ := mem_runRE_cat h3
  obtain ⟨s5, hsep1, h5⟩ := mem_runRE_cat h4
  obtain ⟨s6, hg2, h6⟩ := mem_runRE_cat h5
  obtain ⟨s7, hsep2, h7⟩ := mem_runRE_cat h6
  obtain ⟨s8, hg3, h8⟩ := mem_runRE_cat h7
  obtain rfl := mem_runRE_wb h8
  obtain ⟨s8i, h8i, rfl⟩ := mem_runRE_grp hg3
  obtain ⟨u, hrem, hne, hcaps, hurl, hns⟩ := mem_runRE_url h8i
  have hlen : s7.rem.length - s8i.rem.length = u.length := by
    rw [hrem, List.length_append]; omega
  have hcap : s7.rem.take (s7.rem.length - s8i.rem.length) = u := by
    rw [hlen, hrem]; exact List.take_left u _
  have hfind : List.find? (fun p => p.1 = 3)
      ((3, s7.rem.take (s7.rem.length - s8i.rem.length)) :: s8i.caps)
      = some (3, s7.rem.take (s7.rem.length - s8i.rem.length)) :=
    List.find?_cons_of_pos _ (by simp)
  refine ⟨u, ?_, hne, hurl, ?_, hns⟩
  · simp [groupOf, hfind, hcap]
  · obtain ⟨⟨u1, f1⟩, _⟩ := caps_subseg hd
    obtain ⟨⟨u2, f2⟩, _⟩ := caps_subseg hdot
    obtain ⟨⟨u3, f3⟩, _⟩ := caps_subseg hws
    obtain ⟨⟨u4, f4⟩, _⟩ := caps_subseg hg1
    obtain ⟨⟨u5, f5⟩, _⟩ := caps_subseg hsep1
    obtain ⟨⟨u6, f6⟩, _⟩ := caps_subseg hg2
    obtain ⟨⟨u7, f7⟩, _⟩ := caps_subseg hsep2
    have f1' : line = u1 ++ s1.rem := f1
    refine ⟨u1 ++ u2 ++ u3 ++ u4 ++ u5 ++ u6 ++ u7, s8i.rem, ?_⟩
    rw [f1', f2, f3, f4, f5, f6, f7, hrem]
    simp [List.append_assoc]

/-- Group 2 of a loose-line match is a whitespace-free URL-shaped
contiguous piece of the line. -/
theorem looseRE_group2 {line : List Char} {m : MState}
    (h : pymatch looseRE line = some m) :
    ∃ u, groupOf m 2 = u ∧ u ≠ []
      ∧ (startsW (("http://").toList) (lowerList u) = true
        ∨ startsW (("https://").toList) (lowerList u) = true)
      ∧ (∃ a b, line = a ++ u ++ b)
      ∧ ∀ c ∈ u, pyIsSpace c = false := by
  have hm : m ∈ runRE (fuelFor line) looseRE ⟨line, none, []⟩ := head?_mem h
  obtain ⟨s1, hg1, h1⟩ := mem_runRE_cat hm
  obtain ⟨s2, hg2, h2⟩ := mem_runRE_cat h1
  obtain rfl := mem_runRE_wb h2
  obtain ⟨s2i, h2i, rfl⟩ := mem_runRE_grp hg2
  obtain ⟨u, hrem, hne, hcaps, hurl, hns⟩ := mem_runRE_url h2i
  have hlen : s1.rem.length - s2i.rem.length = u.length := by
    rw [hrem, List.length_append]; omega
  have hcap : s1.rem.take (s1.rem.length - s2i.rem.length) = u := by
    rw [hlen, hrem]; exact List.take_left u _
  have hfind : List.find? (fun p => p.1 = 2)
      ((2, s1.rem.take (s1.rem.length - s2i.rem.length)) :: s2i.caps)
      = some (2, s1.rem.take (s1.rem.length - s2i.rem.length)) :=
    List.find?_cons_of_pos _ (by simp)
  refine ⟨u, ?_, hne, hurl, ?_, hns⟩
  · simp [groupOf, hfind, hcap]
  · obtain ⟨⟨u1, f1⟩, _⟩ := caps_subseg hg1
    have f1' : line = u1 ++ s1.rem := f1
    refine ⟨u1, s2i.rem, ?_⟩
    rw [f1', hrem]
    simp [List.append_assoc]

/-- startsW agrees with being an initial segment. -/
theorem startsW_iff (u l : List Char) : startsW u l = true ↔ ∃ t, l = u ++ t := by
  induction u generalizing l with
  | nil => simp [startsW]
  | cons p ps ih =>
    cases l with
    | nil => simp [startsW]
    | cons c cs =>
      simp only [startsW, Bool.and_eq_true, decide_eq_true_eq, ih, List.cons_append,
        List.cons.injEq]
      constructor
      · rintro ⟨rfl, t, rfl⟩; exact ⟨t, rfl, rfl⟩
      · rintro ⟨t, rfl, rfl⟩; exact ⟨rfl, t, rfl⟩

/-- A list starts with itself followed by anything. -/
theorem startsW_append_self (u t : List Char) : startsW u (u ++ t) = true :=
  (startsW_iff u (u ++ t)).mpr ⟨t, rfl⟩

/-- An occurrence of `u` at offset `a.length` makes startsW true there. -/
theorem startsW_drop_of_parts (u a b l : List Char) (h : l = a ++ u ++ b) :
    startsW u (l.drop a.length) = true := by
  subst h
  rw [List.append_assoc, List.drop_left]
  exact startsW_append_self u b

/-- firstIdx returns a position where the pattern occurs, and the least one. -/
theorem firstIdx_some_spec (l u : List Char) (i : Nat) (h : firstIdx l u = some i) :
    startsW u (l.drop i) = true ∧ ∀ j, j < i → startsW u (l.drop j) = false := by
  induction l generalizing i with
  | nil =>
    unfold firstIdx at h
    by_cases hs : startsW u [] = true
    · rw [if_pos hs] at h
      cases h
      exact ⟨hs, fun j hj => absurd hj (Nat.not_lt_zero j)⟩
    · rw [if_neg hs] at h
      cases h
  | cons c rest ih =>
    unfold firstIdx at h
    by_cases hs : startsW u (c :: rest) = true
    · rw [if_pos hs] at h
      cases h
      exact ⟨hs, fun j hj => absurd hj (Nat.not_lt_zero j)⟩
    · rw [if_neg hs] at h
      simp only [Option.map_eq_some'] at h
      obtain ⟨i', hi', rfl⟩ := h
      obtain ⟨h1, h2⟩ := ih i' hi'
      refine ⟨by simpa using h1, fun j hj => ?_⟩
      cases j with
      | zero => simpa using Bool.of_not_eq_true hs
      | succ j' => simpa using h2 j' (by omega)

/-- The slice s[0:i] is take i. -/
theorem pySlice_take (l : List Char) (i : Nat) : pySlice l 0 (i : Int) = l.take i := by
  simp only [pySlice]
  rw [if_neg (by simp), if_neg (by omega)]
  have ha : (min (0 : Int) (l.length : Int)).toNat = 0 := by
    rw [min_eq_left (by positivity)]; rfl
  have hb : (min (i : Int) (l.length : Int)).toNat = min i l.length := by
    rw [← Nat.cast_min]; exact Int.toNat_natCast _
  rw [ha, hb, List.drop_zero]
  rcases le_total i l.length with h | h
  · rw [min_eq_left h]
  · rw [min_eq_right h, List.take_length, List.take_of_length_le h]

/-- Stripping keeps a contiguous middle piece of the original. -/
theorem strip_parts (l : List Char) : ∃ a b, l = a ++ pyStrip l ++ b := by
  refine ⟨l.takeWhile pyIsSpace,
    ((l.dropWhile pyIsSpace).reverse.takeWhile pyIsSpace).reverse, ?_⟩
  unfold pyStrip
  conv_lhs => rw [← List.takeWhile_append_dropWhile (p := pyIsSpace) (l := l)]
  rw [List.append_assoc]
  congr 1
  set d := l.dropWhile pyIsSpace with hd
  calc d = d.reverse.reverse := (List.reverse_reverse d).symm
  _ = (d.reverse.takeWhile pyIsSpace ++ d.reverse.dropWhile pyIsSpace).reverse := by
      rw [List.takeWhile_append_dropWhile]
  _ = (d.reverse.dropWhile pyIsSpace).reverse ++ (d.reverse.takeWhile pyIsSpace).reverse :=
      List.reverse_append _ _

/-- The falsy-or never returns empty when the default is non-empty. -/
theorem pyOr_ne_nil {x d : List Char} (hd : d ≠ []) : pyOr x d ≠ [] := by
  unfold pyOr
  split
  · exact hd
  · assumption

/-- Members of an append-accumulating fold come from the seed or a step. -/
theorem mem_foldl_append {α β : Type} (f : α → List β) :
    ∀ (l : List α) (init : List β) (b : β),
    b ∈ l.foldl (fun acc x => acc ++ f x) init → b ∈ init ∨ ∃ x ∈ l, b ∈ f x := by
  intro l
  induction l with
  | nil => intro init b h; exact Or.inl h
  | cons x xs ih =>
    intro init b h
    rw [List.foldl_cons] at h
    rcases ih _ _ h with h | ⟨y, hy, hby⟩
    · rcases List.mem_append.mp h with h | h
      · exact Or.inl h
      · exact Or.inr ⟨x, by simp, h⟩
    · exact Or.inr ⟨y, List.mem_cons_of_mem _ hy, hby⟩

/-- An append-accumulating fold of singletons is a map. -/
theorem foldl_append_singleton_eq_map {α β : Type} (f : α → β) (l : List α) :
    l.foldl (fun acc x => acc ++ [f x]) [] = l.map f := by
  have haux : ∀ (l' : List α) (init : List β),
      l'.foldl (fun acc x => acc ++ [f x]) init = init ++ l'.map f := by
    intro l'
    induction l' with
    | nil => intro init; simp
    | cons x xs ih => intro init; rw [List.foldl_cons, ih]; simp
  simpa using haux l []

/-- Every URL findall returns occurs in the subject, is non-empty and
whitespace-free, and starts case-insensitively with http(s)://. -/
theorem findall_url_spec {content u : List Char} (hu : u ∈ pyFindall urlFindRE content) :
    u ≠ [] ∧ (∃ a b, content = a ++ u ++ b)
      ∧ (startsW (("http://").toList) (lowerList u) = true
        ∨ startsW (("https://").toList) (lowerList u) = true)
      ∧ ∀ c ∈ u, pyIsSpace c = false := by
  obtain ⟨t, m, pv, ⟨a, ha⟩, hm, hcons⟩ := findallFrom_spec _ _ _ _ hu
  obtain ⟨s1, hwb1, h1⟩ := mem_runRE_cat hm
  obtain rfl := mem_runRE_wb hwb1
  obtain ⟨s2, hcore, h2⟩ := mem_runRE_cat h1
  obtain rfl := mem_runRE_wb h2
  obtain ⟨u', hrem, hne, hcaps, hurl, hns⟩ := mem_runRE_url hcore
  have ht : t = u' ++ m.rem := hrem
  have huu : u = u' := by
    rw [hcons]
    unfold consumedOf
    rw [ht, List.length_append]
    have hsub : u'.length + m.rem.length - m.rem.length = u'.length := by omega
    rw [hsub]
    exact List.take_left u' _
  subst huu
  refine ⟨hne, ⟨a, m.rem, ?_⟩, hurl, hns⟩
  rw [ha, ht]
  simp [List.append_assoc]

/-- Any reference emitted for one line carries a URL-shaped, non-empty url
occurring in the line. -/
theorem lineRefs_spec {line : List Char} {r : Reference} (hr : r ∈ lineRefs line) :
    r.url ≠ []
    ∧ (startsW (("http://").toList) (lowerList r.url) = true
      ∨ startsW (("https://").toList) (lowerList r.url) = true)
    ∧ ∃ a b, line = a ++ r.url ++ b := by
  unfold lineRefs at hr
  by_cases hstrip : pyStrip line = []
  · rw [if_pos hstrip] at hr; cases hr
  · rw [if_neg hstrip] at hr
    rcases hs : pymatch structRE line with _ | m2
    · rw [hs] at hr
      dsimp only at hr
      rcases hl : pymatch looseRE line with _ | m3
      · rw [hl] at hr; cases hr
      · rw [hl] at hr
        dsimp only at hr
        obtain ⟨u, hgu, hne, hurl, hsub, hns⟩ := looseRE_group2 hl
        by_cases hg2 : groupOf m3 2 = []
        · rw [if_pos hg2] at hr; cases hr
        · rw [if_neg hg2] at hr
          simp only [List.mem_singleton] at hr
          subst hr
          have hurlfield : (Reference.mk
              (pyOr (pyStrip ((pyStrip (groupOf m3 1)).take ((pyStrip (groupOf m3 1)).length / 2))) (("Reference").toList))
              (pyOr (pyStrip ((pyStrip (groupOf m3 1)).drop ((pyStrip (groupOf m3 1)).length / 2))) (("No snippet available").toList))
              (groupOf m3 2)).url = groupOf m3 2 := rfl
          rw [hurlfield, hgu]
          exact ⟨hne, hurl, hsub⟩
    · rw [hs] at hr
      dsimp only at hr
      simp only [List.mem_singleton] at hr
      subst hr
      obtain ⟨u, hgu, hne, hurl, hsub, hns⟩ := structRE_group3 hs
      have hstripu : pyStrip (groupOf m2 3) = u := by
        rw [hgu]; exact pyStrip_eq_self hns
      have hurlfield : (Reference.mk (pyStrip (groupOf m2 1)) (pyStrip (groupOf m2 2))
          (pyStrip (groupOf m2 3))).url = pyStrip (groupOf m2 3) := rfl
      rw [hurlfield, hstripu]
      exact ⟨hne, hurl, hsub⟩

/-- Any reference emitted by the global fallback carries a URL-shaped,
non-empty url occurring in the content. -/
theorem fallback_case {content : List Char} {r : Reference}
    (hr : r ∈ (pyFindall urlFindRE content).foldl
      (fun acc url => acc ++ [fallbackRef content url]) []) :
    r.url ≠ []
    ∧ (startsW (("http://").toList) (lowerList r.url) = true
      ∨ startsW (("https://").toList) (lowerList r.url) = true)
    ∧ ∃ a b, content = a ++ r.url ++ b := by
  rcases mem_foldl_append _ _ _ _ hr with h | ⟨url, hmem, hrr⟩
  · cases h
  · simp only [List.mem_singleton] at hrr
    subst hrr
    obtain ⟨hne, hsub, hurl, hns⟩ := findall_url_spec hmem
    have hurlfield : (fallbackRef content url).url = url := rfl
    rw [hurlfield]
    exact ⟨hne, hurl, hsub⟩

/-- When the pattern occurs nowhere according to firstIdx, it matches at no
offset. -/
theorem firstIdx_none_spec (l u : List Char) (h : firstIdx l u = none) :
    ∀ j, startsW u (l.drop j) = false := by
  induction l with
  | nil =>
    unfold firstIdx at h
    by_cases hs : startsW u [] = true
    · rw [if_pos hs] at h; cases h
    · intro j
      rw [List.drop_nil]
      exact Bool.not_eq_true _ |>.mp hs
  | cons c rest ih =>
    unfold firstIdx at h
    by_cases hs : startsW u (c :: rest) = true
    · rw [if_pos hs] at h; cases h
    · rw [if_neg hs] at h
      simp only [Option.map_eq_none'] at h
      intro j
      cases j with
      | zero => exact Bool.not_eq_true _ |>.mp hs
      | succ j' => simpa using ih h j'

/-- A found index never exceeds the subject length. -/
theorem firstIdx_le_length : ∀ (l u : List Char) (i : Nat),
    firstIdx l u = some i → i ≤ l.length := by
  intro l
  induction l with
  | nil =>
    intro u i h
    unfold firstIdx at h
    by_cases hs : startsW u [] = true
    · rw [if_pos hs] at h; cases h; exact le_refl 0
    · rw [if_neg hs] at h; cases h
  | cons c rest ih =>
    intro u i h
    unfold firstIdx at h
    by_cases hs : startsW u (c :: rest) = true
    · rw [if_pos hs] at h; cases h; simp
    · rw [if_neg hs] at h
      simp only [Option.map_eq_some'] at h
      obtain ⟨i', hi', rfl⟩ := h
      have := ih u i' hi'
      simpa using this

/-- The slice content[max(0, i-150):i] is the take/drop window. -/
theorem pySlice_window (l : List Char) (i : Nat) (h : i ≤ l.length) :
    pySlice l (max 0 ((i : Int) - 150)) (i : Int) = (l.take i).drop (i - 150) := by
  by_cases h150 : i ≤ 150
  · have hmax : max 0 ((i : Int) - 150) = 0 := max_eq_left (by omega)
    rw [hmax, pySlice_take, Nat.sub_eq_zero_of_le h150, List.drop_zero]
  · have hmax : max 0 ((i : Int) - 150) = ((i - 150 : Nat) : Int) :=
      (max_eq_right (by omega)).trans (by omega)
    rw [hmax]
    simp only [pySlice]
    rw [if_neg (by omega), if_neg (by omega)]
    have ha' : min ((i - 150 : Nat) : Int) ((l.length : Nat) : Int)
        = ((i - 150 : Nat) : Int) := min_eq_left (by exact_mod_cast by omega)
    have hb' : min ((i : Nat) : Int) ((l.length : Nat) : Int) = ((i : Nat) : Int) :=
      min_eq_left (by exact_mod_cast h)
    rw [ha', hb', Int.toNat_natCast, Int.toNat_natCast]

/-- For a URL that occurs in the content, the script's fallback construction
agrees with the amended description. -/
theorem fallbackRef_eq_spec {content url : List Char}
    (hocc : ∃ a b, content = a ++ url ++ b) :
    fallbackRef content url = specFallbackRef content url := by
  obtain ⟨a, b, hab⟩ := hocc
  have hsome : ∃ i, firstIdx content url = some i := by
    rcases hf : firstIdx content url with _ | i
    · have hall := firstIdx_none_spec content url hf a.length
      rw [startsW_drop_of_parts url a b content hab] at hall
      cases hall
    · exact ⟨i, rfl⟩
  obtain ⟨i, hi⟩ := hsome
  have hle : i ≤ content.length := firstIdx_le_length content url i hi
  have hwin := pySlice_window content i hle
  simp only [fallbackRef, specFallbackRef, pyFind, hi, Option.getD_some, hwin]

/-- A decimal digit is not whitespace. -/
theorem digit_not_ws {c : Char} (h : isDigitChar c = true) : pyIsSpace c = false := by
  by_cases hs : pyIsSpace c = true
  · exfalso
    simp only [pyIsSpace, Bool.or_eq_true, decide_eq_true_eq] at hs
    simp only [isDigitChar, Bool.and_eq_true, decide_eq_true_eq] at h
    rcases hs with ((((rfl | rfl) | rfl) | rfl) | rfl) | rfl <;> revert h <;> decide
  · exact Bool.not_eq_true _ |>.mp hs

/-- If dropWhile removes everything, every element satisfied the test. -/
theorem dropWhile_nil_means_all {p : Char → Bool} :
    ∀ {l : List Char}, l.dropWhile p = [] → ∀ c ∈ l, p c = true := by
  intro l
  induction l with
  | nil => intro _ c hc; cases hc
  | cons x xs ih =>
    intro h c hc
    rw [List.dropWhile_cons] at h
    by_cases hx : p x = true
    · rw [if_pos hx] at h
      rcases List.mem_cons.mp hc with rfl | hc
      · exact hx
      · exact ih h c hc
    · rw [if_neg hx] at h
      cases h

/-- A string that strips to nothing is all whitespace. -/
theorem pyStrip_nil_means_ws {l : List Char} (h : pyStrip l = []) :
    ∀ c ∈ l, pyIsSpace c = true := by
  unfold pyStrip at h
  have h2 : (l.dropWhile pyIsSpace).reverse.dropWhile pyIsSpace = [] :=
    List.reverse_eq_nil_iff.mp h
  have halld := dropWhile_nil_means_all h2
  intro c hc
  have hc' : c ∈ l.takeWhile pyIsSpace ++ l.dropWhile pyIsSpace := by
    rw [List.takeWhile_append_dropWhile]
    exact hc
  rcases List.mem_append.mp hc' with hc1 | hc2
  · exact List.mem_takeWhile_imp hc1
  · exact halld c (List.mem_reverse.mpr hc2)

/-- Pieces produced by splitting on a character never contain it. -/
theorem splitOnChar_no_sep (sep : Char) :
    ∀ (text piece : List Char), piece ∈ splitOnChar sep text → sep ∉ piece := by
  intro text
  induction text with
  | nil =>
    intro piece h
    simp only [splitOnChar, List.mem_singleton] at h
    subst h
    simp
  | cons c rest ih =>
    intro piece h
    by_cases hc : c = sep
    · rw [show splitOnChar sep (c :: rest) = [] :: splitOnChar sep rest from by
        simp [splitOnChar, hc]] at h
      rcases List.mem_cons.mp h with rfl | h
      · simp
      · exact ih piece h
    · obtain ⟨p, ps, hsplit, b0, hb0⟩ := splitOnChar_shape sep rest
      rw [show splitOnChar sep (c :: rest) = (c :: p) :: ps from by
        simp [splitOnChar, hc, hsplit]] at h
      rcases List.mem_cons.mp h with rfl | h
      · intro hmem
        rcases List.mem_cons.mp hmem with rfl | hmem
        · exact hc rfl
        · exact ih p (by rw [hsplit]; exact List.mem_cons_self _ _) hmem
      · exact ih piece (by rw [hsplit]; exact List.mem_cons_of_mem _ h)

/-- Inside a newline-free line, every separator match consumes a run of
whitespace, a hyphen, and a run of whitespace: the raw-line-break
alternative of the separator pattern cannot fire. -/
theorem sepRE_hyphen_shape {line : List Char} (hnl : '\n' ∉ line)
    {fuel : Nat} {s s' : MState} (hsuf : ∃ a, line = a ++ s.rem)
    (h : s' ∈ runRE fuel sepRE s) :
    ∃ w1 w2, s.rem = (w1 ++ '-' :: w2) ++ s'.rem
      ∧ w1 ≠ [] ∧ w2 ≠ []
      ∧ (∀ c ∈ w1, pyIsSpace c = true) ∧ (∀ c ∈ w2, pyIsSpace c = true) := by
  obtain ⟨a, ha⟩ := hsuf
  rcases mem_runRE_alt h with h1 | h2
  · obtain ⟨sx, hw1, hrest⟩ := mem_runRE_cat h1
    obtain ⟨w1, e1, hws1, hlen1, _⟩ := mem_runRE_repcls hw1
    obtain ⟨sy, hhy, hw2⟩ := mem_runRE_cat hrest
    obtain ⟨ch, r, hr, hp, rfl⟩ := mem_runRE_cls hhy
    obtain rfl : ch = '-' := by simpa using hp
    obtain ⟨w2, e2, hws2, hlen2, _⟩ := mem_runRE_repcls hw2
    have e2' : r = w2 ++ s'.rem := e2
    refine ⟨w1, w2, ?_, ?_, ?_, hws1, hws2⟩
    · rw [e1, hr, e2']
      simp [List.append_assoc]
    · intro hw; subst hw; simp at hlen1
    · intro hw; subst hw; simp at hlen2
  · exfalso
    obtain ⟨sx, hw1, hrest⟩ := mem_runRE_cat h2
    obtain ⟨w1, e1, _, _, _⟩ := mem_runRE_repcls hw1
    obtain ⟨sy, hnlc, _⟩ := mem_runRE_cat hrest
    obtain ⟨ch, r, hr, hp, rfl⟩ := mem_runRE_cls hnlc
    obtain rfl : ch = '\n' := by simpa using hp
    apply hnl
    rw [ha, e1, hr]
    simp

/-- Truthiness of decoded null. -/
theorem pyTruthy_null : pyTruthy .null = false := rfl

/-- Truthiness of the decoded empty string. -/
theorem pyTruthy_emptyStr : pyTruthy (.str []) = false := rfl

section ClaimTheorems

set_option maxRecDepth 1000000

/-- C2: on the input "Sky is blue.\n\nReferences:\n1. NASA - Sky color explained -
https://nasa.gov/sky", the Extractor yields exactly one reference, with title
"NASA", snippet "Sky color explained" and url "https://nasa.gov/sky", and the
derived answer is exactly "Sky is blue.". -/
theorem C2_sky_example :
    extract_references (("Sky is blue.\n\nReferences:\n1. NASA - Sky color explained - https://nasa.gov/sky").toList)
      = [⟨("NASA").toList, ("Sky color explained").toList, ("https://nasa.gov/sky").toList⟩]
    ∧ deriveAnswer (("Sky is blue.\n\nReferences:\n1. NASA - Sky color explained - https://nasa.gov/sky").toList)
      = ("Sky is blue.").toList :=
  ⟨rfl, rfl⟩

/-- C3 counterexample: on the reference line "1. T - S - https://a.b/c." the
claim's rule (the URL runs to the first whitespace, here the end of the line)
predicts the url "https://a.b/c.", but the word boundary in the pattern drops
the trailing dot and the script emits "https://a.b/c". -/
theorem C3_counterexample :
    extract_references (("references:\n1. T - S - https://a.b/c.").toList)
      = [⟨("T").toList, ("S").toList, ("https://a.b/c").toList⟩]
    ∧ (("references:\n1. T - S - https://a.b/c.").toList.drop 23).takeWhile (fun ch => !pyIsSpace ch)
      = ("https://a.b/c.").toList
    ∧ ("https://a.b/c").toList ≠ ("https://a.b/c.").toList :=
  ⟨rfl, rfl, by decide⟩

/-- C3 (amended): whenever the structured numbered-line pattern matches a
line of the references block, the reference emitted for that line is exactly
the three captured groups with surrounding whitespace trimmed, and the URL
capture is non-empty, whitespace-free (so trimming leaves it unchanged),
starts case-insensitively with http:// or https:// and occurs as a
contiguous substring of the line — it need not extend to the first
whitespace, since the trailing word boundary can drop trailing non-word
characters; moreover the raw-line-break separator alternative of the
pattern never applies: the block is split on newlines first, the split
pieces never contain a newline, and within a newline-free line every
separator match consumes a run of whitespace, a hyphen and a run of
whitespace. -/
theorem C3_amended :
    (∀ (line : List Char) (m : MState), pymatch structRE line = some m →
        lineRefs line
          = [⟨pyStrip (groupOf m 1), pyStrip (groupOf m 2), pyStrip (groupOf m 3)⟩]
        ∧ pyStrip (groupOf m 3) = groupOf m 3
        ∧ groupOf m 3 ≠ []
        ∧ (startsW (("http://").toList) (lowerList (groupOf m 3)) = true
          ∨ startsW (("https://").toList) (lowerList (groupOf m 3)) = true)
        ∧ ∃ a b, line = a ++ groupOf m 3 ++ b)
    ∧ (∀ text piece, piece ∈ splitOnChar '\n' text → '\n' ∉ piece)
    ∧ (∀ (line : List Char), '\n' ∉ line → ∀ (fuel : Nat) (s s' : MState),
        (∃ a, line = a ++ s.rem) → s' ∈ runRE fuel sepRE s →
        ∃ w1 w2, s.rem = (w1 ++ '-' :: w2) ++ s'.rem
          ∧ w1 ≠ [] ∧ w2 ≠ []
          ∧ (∀ c ∈ w1, pyIsSpace c = true) ∧ (∀ c ∈ w2, pyIsSpace c = true)) := by
  refine ⟨?_, fun text piece h => splitOnChar_no_sep '\n' text piece h,
    fun line hnl fuel s s' hsuf h => sepRE_hyphen_shape hnl hsuf h⟩
  intro line m h
  obtain ⟨u, hgu, hne, hurl, hsub, hns⟩ := structRE_group3 h
  have hm : m ∈ runRE (fuelFor line) structRE ⟨line, none, []⟩ := head?_mem h
  obtain ⟨s1, hd, _⟩ := mem_runRE_cat hm
  obtain ⟨u1, e1, hdig, hlen1, _⟩ := mem_runRE_repcls hd
  have e1' : line = u1 ++ s1.rem := e1
  rcases hu1 : u1 with _ | ⟨c0, u1t⟩
  · rw [hu1] at hlen1; simp at hlen1
  · have hc0 : c0 ∈ line := by
      rw [e1', hu1]; simp
    have hstrip : ¬ pyStrip line = [] := by
      intro hnil
      have hws := pyStrip_nil_means_ws hnil c0 hc0
      rw [digit_not_ws (hdig c0 (by rw [hu1]; simp))] at hws
      cases hws
    refine ⟨?_, ?_, ?_, ?_, ?_⟩
    · unfold lineRefs
      rw [if_neg hstrip, h]
    · rw [hgu]; exact pyStrip_eq_self hns
    · rw [hgu]; exact hne
    · rw [hgu]; exact hurl
    · rw [hgu]; exact hsub

/-- Witness for C3 (amended) at the concrete line "1. T - S - https://a.b/c."
and its concrete match state: the emitted reference has the trimmed captures,
and the captured URL occurs in the line. -/
theorem C3_amended_witness :
    lineRefs (("1. T - S - https://a.b/c.").toList)
      = [⟨("T").toList, ("S").toList, ("https://a.b/c").toList⟩]
    ∧ ∃ a b, ("1. T - S - https://a.b/c.").toList
        = a ++ ("https://a.b/c").toList ++ b := by
  have h := C3_amended.1 (("1. T - S - https://a.b/c.").toList)
    ⟨['.'], some 'c',
      [(3, ("https://a.b/c").toList), (2, ("S").toList), (1, ("T").toList)]⟩ rfl
  exact ⟨h.1.trans (by rfl), h.2.2.2.2⟩

/-- C4 counterexample: with the same URL occurring twice and no references
section, the fallback uses content.find(url) for both matches, so the second
reference's snippet is the window before the FIRST occurrence ("A"), not the
window before the second occurrence ("A https://x.com/a B") as the claim
prescribes. -/
theorem C4_counterexample :
    extract_references (("A https://x.com/a B https://x.com/a").toList)
      = [⟨("A").toList, ("A").toList, ("https://x.com/a").toList⟩,
         ⟨("A").toList, ("A").toList, ("https://x.com/a").toList⟩]
    ∧ startsW (("https://x.com/a").toList) ((("A https://x.com/a B https://x.com/a").toList).drop 20) = true
    ∧ pyStrip ((("A https://x.com/a B https://x.com/a").toList).take 20)
      = ("A https://x.com/a B").toList
    ∧ ("A").toList ≠ ("A https://x.com/a B").toList :=
  ⟨rfl, rfl, rfl, by decide⟩

/-- C5 counterexample: the structured branch trims captured groups after the
match, so the line "1. x -   - http://a" (whose snippet capture is a single
space) produces a reference with an EMPTY snippet, against the claim that
title and snippet are always non-empty. -/
theorem C5_counterexample :
    extract_references (("references:\n1. x -   - http://a").toList)
      = [⟨("x").toList, [], ("http://a").toList⟩] :=
  rfl

/-- C7 counterexample: a response whose "choices" key is present but an EMPTY
list makes the extraction expression raise IndexError (caught only by the
orchestrator's catch-all), so the extraction step is not exception-free. -/
theorem C7_counterexample :
    pyExtractContent (.obj [(choicesKey, .arr [])]) = .error .indexError :=
  rfl

/-- C9 counterexample: the stream filter does not stop at the sentinel; a
"data:" line arriving after "data: [DONE]" is still yielded, whereas the
claim says the sentinel ends the sequence. -/
theorem C9_counterexample :
    streamYields [("data: a").toList, ("data: [DONE]").toList, ("data: b").toList]
      = [("a").toList, ("b").toList]
    ∧ [("a").toList, ("b").toList] ≠ [("a").toList] :=
  ⟨rfl, by decide⟩

/-- C9 (amended): the streaming filter yields, in order, the payload of every
nonempty line carrying the "data: " marker whose stripped payload is not the
"[DONE]" sentinel; sentinel lines are filtered out wherever they occur but do
not terminate the iteration. -/
theorem C9_amended (lines : List (List Char)) :
    streamYields lines = (lines.filter isDataLine).map (fun l => l.drop 6) := by
  have h := streamYields_acc lines []
  simpa [streamYields] using h

/-- C8: when the decoded invocation object has a truthy query and no apiKey
key, the entry point skips perform_research entirely and emits the canned
simulated payload (answer echoing the query, one canned reference, error "No
API key provided", simulated=true) with exit code 0. -/
theorem C8_no_key_branch (kvs : List (List Char × Json)) (q : Json)
    (research : ResearchResult)
    (hq : jsonGet kvs queryKey = some q)
    (hqt : pyTruthy q = true)
    (hk : jsonGet kvs apiKeyKey = none) :
    runMain (.obj kvs) research =
      ⟨⟨("Simulated response for: ").toList ++ pyStr q,
        [⟨("Simulated Reference").toList,
          ("This is a simulated reference snippet.").toList,
          ("https://example.com/simulated").toList⟩],
        some (("No API key provided").toList), true⟩, 0, false⟩ := by
  simp [runMain, hq, hk, hqt, pyTruthy_null, simulatedResult]

/-- Witness for C8 at the concrete invocation object with query "hi" and no
apiKey key. -/
theorem C8_witness :
    runMain (.obj [(("query").toList, .str (("hi").toList))])
        ⟨[], [], none, false⟩ =
      ⟨⟨("Simulated response for: hi").toList,
        [⟨("Simulated Reference").toList,
          ("This is a simulated reference snippet.").toList,
          ("https://example.com/simulated").toList⟩],
        some (("No API key provided").toList), true⟩, 0, false⟩ :=
  C8_no_key_branch [(("query").toList, .str (("hi").toList))]
    (.str (("hi").toList)) ⟨[], [], none, false⟩ rfl rfl rfl

/-- C10: the entry point tests decoded fields for truthiness, not presence:
a query explicitly supplied as "" takes the same missing-query branch (error
payload, exit code 1, research not invoked), both when absent and when empty;
and an apiKey explicitly supplied as "" takes the simulated no-key branch
without invoking research. -/
theorem C10_truthiness (kvs : List (List Char × Json)) (research : ResearchResult) :
    (jsonGet kvs queryKey = some (.str []) →
      runMain (.obj kvs) research = ⟨noQueryResult, 1, false⟩)
    ∧ (jsonGet kvs queryKey = none →
      runMain (.obj kvs) research = ⟨noQueryResult, 1, false⟩)
    ∧ (∀ q, jsonGet kvs queryKey = some q → pyTruthy q = true →
        jsonGet kvs apiKeyKey = some (.str []) →
        runMain (.obj kvs) research = ⟨simulatedResult q, 0, false⟩) := by
  refine ⟨fun h => ?_, fun h => ?_, fun q hq hqt hk => ?_⟩
  · simp [runMain, h, pyTruthy_emptyStr]
  · simp [runMain, h, pyTruthy_null]
  · simp [runMain, hq, hqt, hk, pyTruthy_emptyStr, simulatedResult]

/-- Witness for C10 at two concrete invocation objects: query supplied as ""
(exit 1, no research), and query "hi" with apiKey supplied as "" (simulated
branch, no research). -/
theorem C10_witness :
    runMain (.obj [(("query").toList, .str [])]) ⟨[], [], none, false⟩
      = ⟨noQueryResult, 1, false⟩
    ∧ runMain (.obj [(("query").toList, .str (("hi").toList)),
        (("apiKey").toList, .str [])]) ⟨[], [], none, false⟩
      = ⟨simulatedResult (.str (("hi").toList)), 0, false⟩ :=
  ⟨(C10_truthiness _ _).1 rfl,
   (C10_truthiness _ _).2.2 (.str (("hi").toList)) rfl rfl rfl⟩

/-- C7 (amended): extracting the content from the first completion choice
degrades to the empty string whenever the choices key, the message key or
the content key is MISSING, without an exception, and returns a present
content verbatim; but a present-and-EMPTY choices list is not handled: the
indexing raises IndexError (converted only by the orchestrator's catch-all). -/
theorem C7_amended (kvs : List (List Char × Json)) :
    (jsonGet kvs choicesKey = none →
      pyExtractContent (.obj kvs) = .ok (.str []))
    ∧ (∀ fkvs rest, jsonGet kvs choicesKey = some (.arr (.obj fkvs :: rest)) →
        jsonGet fkvs messageKey = none →
        pyExtractContent (.obj kvs) = .ok (.str []))
    ∧ (∀ fkvs rest mkvs, jsonGet kvs choicesKey = some (.arr (.obj fkvs :: rest)) →
        jsonGet fkvs messageKey = some (.obj mkvs) →
        jsonGet mkvs contentKey = none →
        pyExtractContent (.obj kvs) = .ok (.str []))
    ∧ (∀ fkvs rest mkvs v, jsonGet kvs choicesKey = some (.arr (.obj fkvs :: rest)) →
        jsonGet fkvs messageKey = some (.obj mkvs) →
        jsonGet mkvs contentKey = some v →
        pyExtractContent (.obj kvs) = .ok v)
    ∧ (jsonGet kvs choicesKey = some (.arr []) →
        pyExtractContent (.obj kvs) = .error .indexError) := by
  refine ⟨fun h => ?_, fun fkvs rest h hm => ?_, fun fkvs rest mkvs h hm hc => ?_,
    fun fkvs rest mkvs v h hm hc => ?_, fun h => ?_⟩
  · simp only [pyExtractContent, pyGetKey, h, Option.getD_none, pyIndexZero, jsonGet_nil]
  · simp only [pyExtractContent, pyGetKey, h, Option.getD_some, pyIndexZero, hm,
      jsonGet_nil, Option.getD_none]
  · simp only [pyExtractContent, pyGetKey, h, Option.getD_some, pyIndexZero, hm, hc,
      Option.getD_none]
  · simp only [pyExtractContent, pyGetKey, h, Option.getD_some, pyIndexZero, hm, hc]
  · simp only [pyExtractContent, pyGetKey, h, Option.getD_some, pyIndexZero]

/-- Witness for C7 (amended) at concrete responses: one with no choices key
(empty string, no exception) and one with an empty choices list (IndexError). -/
theorem C7_amended_witness :
    pyExtractContent (.obj []) = .ok (.str [])
    ∧ pyExtractContent (.obj [(choicesKey, .arr [])]) = .error .indexError :=
  ⟨(C7_amended []).1 rfl, (C7_amended [(choicesKey, .arr [])]).2.2.2.2 rfl⟩

/-- C1: perform_research is total by construction and uniform on failure:
a missing credential, a transport failure, or a parsing failure each
produce a result with simulated=true and a non-empty error (granted the
transport exception text is non-empty, as the client's re-raised request
exceptions are), while simulated=false holds exactly on the success path,
which carries no error field. -/
theorem C1_perform_research_total (query : List Char) (apiKey envKey : Option (List Char))
    (net : List (List Char × List Char) → Except (List Char) Json)
    (hnet : ∀ msgs e, net msgs = .error e → e ≠ []) :
    (((perform_research query apiKey envKey net).simulated = true
        ∧ ∃ e, (perform_research query apiKey envKey net).error = some e ∧ e ≠ [])
      ∨ ((perform_research query apiKey envKey net).simulated = false
        ∧ (perform_research query apiKey envKey net).error = none))
    ∧ ((perform_research query apiKey envKey net).simulated = false ↔
        (truthyKey (if truthyKey apiKey then apiKey else envKey) = true
          ∧ ∃ j s, net (researchMessages query) = .ok j
            ∧ pyExtractContent j = .ok (.str s))) := by
  by_cases hk : truthyKey (if truthyKey apiKey then apiKey else envKey) = true
  · rcases hn : net (researchMessages query) with e | resp
    · have he : e ≠ [] := hnet _ _ hn
      constructor
      · exact Or.inl ⟨by simp [perform_research, hk, hn, errorResult],
          e, by simp [perform_research, hk, hn, errorResult], he⟩
      · simp [perform_research, hk, hn, errorResult]
    · rcases hx : pyExtractContent resp with pe | v
      · constructor
        · exact Or.inl ⟨by simp [perform_research, hk, hn, hx, errorResult],
            pe.msg, by simp [perform_research, hk, hn, hx, errorResult],
            by cases pe <;> decide⟩
        · simp [perform_research, hk, hn, hx, errorResult]
      · cases v with
        | str content =>
          constructor
          · exact Or.inr ⟨by simp [perform_research, hk, hn, hx],
              by simp [perform_research, hk, hn, hx]⟩
          · simp only [perform_research, hk, hn, hx]
            simp [hk, hn, hx]
        | null =>
          constructor
          · exact Or.inl ⟨by simp [perform_research, hk, hn, hx, errorResult],
              PyErr.typeError.msg,
              by simp [perform_research, hk, hn, hx, errorResult], by decide⟩
          · simp [perform_research, hk, hn, hx, errorResult]
        | bool b =>
          constructor
          · exact Or.inl ⟨by simp [perform_research, hk, hn, hx, errorResult],
              PyErr.typeError.msg,
              by simp [perform_research, hk, hn, hx, errorResult], by decide⟩
          · simp [perform_research, hk, hn, hx, errorResult]
        | num n =>
          constructor
          · exact Or.inl ⟨by simp [perform_research, hk, hn, hx, errorResult],
              PyErr.typeError.msg,
              by simp [perform_research, hk, hn, hx, errorResult], by decide⟩
          · simp [perform_research, hk, hn, hx, errorResult]
        | arr xs =>
          constructor
          · exact Or.inl ⟨by simp [perform_research, hk, hn, hx, errorResult],
              PyErr.typeError.msg,
              by simp [perform_research, hk, hn, hx, errorResult], by decide⟩
          · simp [perform_research, hk, hn, hx, errorResult]
        | obj okvs =>
          constructor
          · exact Or.inl ⟨by simp [perform_research, hk, hn, hx, errorResult],
              PyErr.typeError.msg,
              by simp [perform_research, hk, hn, hx, errorResult], by decide⟩
          · simp [perform_research, hk, hn, hx, errorResult]
  · constructor
    · exact Or.inl ⟨by simp [perform_research, hk, errorResult],
        noKeyMsg, by simp [perform_research, hk, errorResult], by decide⟩
    · simp [perform_research, hk, errorResult]

/-- Witness for C1 at a concrete successful invocation: credential "k",
a response carrying content "hi"; the result is not simulated and carries
no error. -/
theorem C1_witness :
    (((perform_research (("q").toList) (some (("k").toList)) none
        (fun _ => .ok (.obj [(choicesKey,
          .arr [.obj [(messageKey, .obj [(contentKey, .str (("hi").toList))])]])]))).simulated = true
        ∧ ∃ e, (perform_research (("q").toList) (some (("k").toList)) none
        (fun _ => .ok (.obj [(choicesKey,
          .arr [.obj [(messageKey, .obj [(contentKey, .str (("hi").toList))])]])]))).error = some e ∧ e ≠ [])
      ∨ ((perform_research (("q").toList) (some (("k").toList)) none
        (fun _ => .ok (.obj [(choicesKey,
          .arr [.obj [(messageKey, .obj [(contentKey, .str (("hi").toList))])]])]))).simulated = false
        ∧ (perform_research (("q").toList) (some (("k").toList)) none
        (fun _ => .ok (.obj [(choicesKey,
          .arr [.obj [(messageKey, .obj [(contentKey, .str (("hi").toList))])]])]))).error = none)) :=
  (C1_perform_research_total (("q").toList) (some (("k").toList)) none
    (fun _ => .ok (.obj [(choicesKey,
      .arr [.obj [(messageKey, .obj [(contentKey, .str (("hi").toList))])]])]))
    (fun _ _ h => nomatch h)).1

/-- C6: the answer is the content truncated at the first case-insensitive
occurrence of "references" (then stripped), or the whole content when there
is none; in particular, after truncation no case-insensitive occurrence of
"references" remains anywhere in the answer, so a trailing references
section is never retained. -/
theorem C6_answer_truncation (content : List Char) :
    (firstIdx (lowerList content) (("references").toList) = none →
      deriveAnswer content = content)
    ∧ ∀ i, firstIdx (lowerList content) (("references").toList) = some i →
        deriveAnswer content = pyStrip (content.take i)
        ∧ ¬ ∃ a b, lowerList (deriveAnswer content) = a ++ (("references").toList) ++ b := by
  constructor
  · intro h
    simp only [deriveAnswer, h]
  · intro i hidx
    have hda : deriveAnswer content = pyStrip (content.take i) := by
      simp only [deriveAnswer, hidx, pySlice_take]
    refine ⟨hda, ?_⟩
    rintro ⟨a, b, hab⟩
    rw [hda] at hab
    obtain ⟨x, y, hxy⟩ := strip_parts (content.take i)
    have hlow : (lowerList content).take i
        = lowerList x ++ (a ++ (("references").toList) ++ b) ++ lowerList y := by
      calc (lowerList content).take i = lowerList (content.take i) := by
            rw [lowerList, lowerList, List.map_take]
      _ = lowerList (x ++ pyStrip (content.take i) ++ y) := by rw [← hxy]
      _ = lowerList x ++ lowerList (pyStrip (content.take i)) ++ lowerList y := by
            simp [lowerList]
      _ = lowerList x ++ (a ++ (("references").toList) ++ b) ++ lowerList y := by
            rw [hab]
    have hsplit : lowerList content
        = (lowerList x ++ a) ++ (("references").toList)
          ++ (b ++ lowerList y ++ (lowerList content).drop i) := by
      conv_lhs => rw [← List.take_append_drop i (lowerList content)]
      rw [hlow]
      simp [List.append_assoc]
    have hp : startsW (("references").toList)
        ((lowerList content).drop (lowerList x ++ a).length) = true :=
      startsW_drop_of_parts _ _ _ _ hsplit
    have hlen : (lowerList x ++ a).length + 10 ≤ i := by
      have h1 : ((lowerList content).take i).length ≤ i := by
        simp [List.length_take]
      rw [hlow] at h1
      have h10 : (("references").toList).length = 10 := rfl
      simp only [List.length_append, h10] at h1 ⊢
      omega
    have hmin := (firstIdx_some_spec _ _ _ hidx).2 (lowerList x ++ a).length (by omega)
    rw [hp] at hmin
    cases hmin

/-- Witness for C6 at the concrete content "a References": the answer is the
stripped prefix "a" and no case-insensitive "references" remains in it. -/
theorem C6_witness :
    deriveAnswer (("a References").toList) = pyStrip ((("a References").toList).take 2)
    ∧ ¬ ∃ a b, lowerList (deriveAnswer (("a References").toList))
        = a ++ (("references").toList) ++ b :=
  (C6_answer_truncation (("a References").toList)).2 2 rfl

/-- C5 (amended): every emitted Reference carries a non-empty url that
starts, case-insensitively, with http:// or https:// and occurs as a
contiguous substring of the input text; the loose-line and global-fallback
branches always emit non-empty titles and snippets (falling back to the
default strings "Reference" / "No snippet available"), while the structured
numbered-line branch trims its captures and may emit empty strings. -/
theorem C5_amended (content : List Char) :
    (∀ r ∈ extract_references content,
        r.url ≠ []
        ∧ (startsW (("http://").toList) (lowerList r.url) = true
          ∨ startsW (("https://").toList) (lowerList r.url) = true)
        ∧ ∃ a b, content = a ++ r.url ++ b)
    ∧ (∀ line m, pymatch structRE line = none → pymatch looseRE line = some m →
        ∀ r ∈ lineRefs line, r.title ≠ [] ∧ r.snippet ≠ [])
    ∧ ∀ url, (fallbackRef content url).title ≠ []
        ∧ (fallbackRef content url).snippet ≠ [] := by
  refine ⟨?_, ?_, ?_⟩
  · intro r hr
    unfold extract_references at hr
    rcases hsec : pysearch sectionRE content with _ | ⟨t, msec⟩
    · rw [hsec] at hr
      dsimp only at hr
      rw [if_pos rfl] at hr
      exact fallback_case hr
    · rw [hsec] at hr
      dsimp only at hr
      by_cases hg : groupOf msec 1 = []
      · rw [if_pos hg] at hr
        rw [if_pos rfl] at hr
        exact fallback_case hr
      · rw [if_neg hg] at hr
        by_cases hempty : (splitOnChar '\n' (pyStrip (groupOf msec 1))).foldl
            (fun acc line => acc ++ lineRefs line) [] = []
        · rw [if_pos hempty] at hr
          exact fallback_case hr
        · rw [if_neg hempty] at hr
          rcases mem_foldl_append _ _ _ _ hr with h | ⟨line, hline, hrline⟩
          · cases h
          · obtain ⟨hne, hurl, a4, b4, hl4⟩ := lineRefs_spec hrline
            refine ⟨hne, hurl, ?_⟩
            obtain ⟨a1, b1, hl1⟩ := splitOnChar_subseg '\n' _ _ hline
            obtain ⟨a2, b2, hl2⟩ := strip_parts (groupOf msec 1)
            rcases groupOf_eq_or_mem msec 1 with hz | ⟨q, hq, hqv⟩
            · exact absurd hz hg
            · obtain ⟨⟨a0, ha0⟩, pv, hmsec⟩ := searchFrom_some content none hsec
              obtain ⟨_, new, hcapseq, hsubcaps⟩ := caps_subseg hmsec
              have hqnew : q ∈ new := by
                rw [hcapseq] at hq
                simpa using hq
              obtain ⟨a3, b3, hl3⟩ := hsubcaps q hqnew
              have hl3' : t = a3 ++ q.2 ++ b3 := hl3
              have hl5 : pyStrip (groupOf msec 1) = (a1 ++ a4) ++ r.url ++ (b4 ++ b1) := by
                rw [hl1, hl4]; simp [List.append_assoc]
              have hl6 : groupOf msec 1 = (a2 ++ (a1 ++ a4)) ++ r.url ++ ((b4 ++ b1) ++ b2) := by
                rw [hl2, hl5]; simp [List.append_assoc]
              have hl7 : t = (a3 ++ (a2 ++ (a1 ++ a4))) ++ r.url
                  ++ (((b4 ++ b1) ++ b2) ++ b3) := by
                rw [hl3', hqv, hl6]; simp [List.append_assoc]
              exact ⟨a0 ++ (a3 ++ (a2 ++ (a1 ++ a4))), ((b4 ++ b1) ++ b2) ++ b3,
                by rw [ha0, hl7]; simp [List.append_assoc]⟩
  · intro line m hsnone hlsome r hr
    unfold lineRefs at hr
    by_cases hstrip : pyStrip line = []
    · rw [if_pos hstrip] at hr; cases hr
    · rw [if_neg hstrip] at hr
      rw [hsnone] at hr
      dsimp only at hr
      rw [hlsome] at hr
      dsimp only at hr
      by_cases hg2 : groupOf m 2 = []
      · rw [if_pos hg2] at hr; cases hr
      · rw [if_neg hg2] at hr
        simp only [List.mem_singleton] at hr
        subst hr
        exact ⟨pyOr_ne_nil (by decide), pyOr_ne_nil (by decide)⟩
  · intro url
    exact ⟨pyOr_ne_nil (by decide), pyOr_ne_nil (by decide)⟩

/-- Witness for C5 (amended) at the concrete content
"See https://example.com for details." and its single emitted reference. -/
theorem C5_amended_witness :
    (Reference.mk (("See").toList) (("See").toList) (("https://example.com").toList)).url ≠ []
    ∧ (startsW (("http://").toList)
        (lowerList (Reference.mk (("See").toList) (("See").toList)
          (("https://example.com").toList)).url) = true
      ∨ startsW (("https://").toList)
        (lowerList (Reference.mk (("See").toList) (("See").toList)
          (("https://example.com").toList)).url) = true)
    ∧ ∃ a b, ("See https://example.com for details.").toList
        = a ++ (Reference.mk (("See").toList) (("See").toList)
            (("https://example.com").toList)).url ++ b :=
  (C5_amended (("See https://example.com for details.").toList)).1
    ⟨("See").toList, ("See").toList, ("https://example.com").toList⟩
    (by
      have hcomp : extract_references (("See https://example.com for details.").toList)
          = [⟨("See").toList, ("See").toList, ("https://example.com").toList⟩] := rfl
      rw [hcomp]
      exact List.mem_singleton.mpr rfl)

/-- C4 (amended): for every input in which the references-section search
fails, the Extractor returns exactly one Reference per non-overlapping URL
regex match, in document order, each built by the amended fallback rule: the
snippet is the trimmed window of up to 150 characters before the FIRST
occurrence of that URL string in the text (so a repeated URL reuses the
first occurrence's window), and the title is the last sentence fragment of
that window, with the defaults when empty. -/
theorem C4_amended (content : List Char)
    (h : pysearch sectionRE content = none) :
    extract_references content
      = (pyFindall urlFindRE content).map (specFallbackRef content) := by
  unfold extract_references
  rw [h]
  dsimp only
  rw [if_pos rfl, foldl_append_singleton_eq_map]
  exact List.map_congr_left fun u hu =>
    fallbackRef_eq_spec (findall_url_spec hu).2.1

/-- Witness for C4 (amended) at the concrete content
"See https://example.com for details.", which has no references section. -/
theorem C4_amended_witness :
    extract_references (("See https://example.com for details.").toList)
      = (pyFindall urlFindRE (("See https://example.com for details.").toList)).map
          (specFallbackRef (("See https://example.com for details.").toList)) :=
  C4_amended (("See https://example.com for details.").toList) rfl

end ClaimTheorems

end Argus
